import Mathlib

/-!
# Verification of the uber-analysis interval reconciliation core

This file embeds, in Lean 4, the interval-algebra core of the
`hestiaAI/uber-analysis` repository:

* the `portion`-library interval sets used by `src/utils.py`
  (`df_to_interval`, `interval_to_df`, `make_status_intervals`,
  `interval_merge_logic`, `main_interval_logic`),
* the point/cursor interval queries and the event–interval audit of
  `src/src/tripmatch.py` (`date_in_interval`, `next_interval_including_date`,
  `intervals_including_date_old`, `intervals_including_date`,
  `datlocated_rows_from_intervals`, `match_dates_to_intervals`,
  `interval_equals`, `find_matching_date_locations`),
* the period construction of `time_tuples_to_periods`, and
* the NCLS-based bulk overlap join of
  `src/create_grand_dataframe.py` (`merge_over_time_intervals2`).

Timestamps are modelled as rationals (`ℚ`): the Python code only compares,
sorts and equates timestamps, so any dense linear order is a faithful model.

The Python code manipulates interval sets through the third-party `portion`
library.  `portion` represents an interval as a normalized list of atomic
intervals, each with a lower and an upper bound that is either a value or
±infinity and is either open or closed; construction sorts the atoms by
`(lower, lower-bound-open)` and merges mergeable neighbours, the empty
interval is represented by the single atom `(OPEN, +inf, -inf, OPEN)`, and
`|`, `-`, `&`, `~` implement exact set union, difference, intersection and
complement.  Those semantics are reproduced below (`Atomic`, `PIntv` and
the operations on them), and validated by the membership lemmas
(`memI_unionI`, `memI_diffI`, …) proved about them.
-/

/-- A bound value of a `portion` atomic interval: a timestamp (`fin`) or one
of the two infinities that `portion` uses for complements and for the
representation of the empty interval. -/
inductive BVal : Type where
  | ninf : BVal
  | fin : ℚ → BVal
  | pinf : BVal
deriving DecidableEq, Repr

/-- The order on bound values: `ninf < fin q < pinf`, `fin` monotone. -/
def BVal.ble : BVal → BVal → Bool
  | .ninf, _ => true
  | .fin a, .fin b => decide (a ≤ b)
  | _, .pinf => true
  | _, _ => false

instance : LinearOrder BVal where
  le a b := BVal.ble a b = true
  le_refl a := by cases a <;> simp [BVal.ble]
  le_trans a b c := by
    cases a <;> cases b <;> cases c <;> simp [BVal.ble] <;> exact fun h₁ h₂ => le_trans h₁ h₂
  le_antisymm a b := by
    cases a <;> cases b <;> simp [BVal.ble] <;> exact fun h₁ h₂ => le_antisymm h₁ h₂
  le_total a b := by
    cases a <;> cases b <;> simp [BVal.ble] <;> exact le_total _ _
  decidableLE a b := instDecidableEqBool (BVal.ble a b) true
  decidableEq := inferInstance

instance : DecidableRel (fun a b : BVal => a ≤ b) := fun a b => LinearOrder.decidableLE a b

instance : DecidableRel (fun a b : BVal => a < b) := fun a b => LinearOrder.decidableLT a b

/-- One atomic interval of a `portion` interval: bound values plus, for each
side, a flag that is `true` when the bound is closed (this matches the tuple
`(left is CLOSED, lower, upper, right is CLOSED)` that `portion.to_data`
exports). -/
structure Atomic : Type where
  left : Bool
  lower : BVal
  upper : BVal
  right : Bool
deriving DecidableEq, Repr

/-- `portion` drops an atomic interval on construction unless
`lower < upper` or `lower == upper` with both bounds closed. -/
def Atomic.nonempty (a : Atomic) : Bool :=
  decide (a.lower < a.upper) || (decide (a.lower = a.upper) && a.left && a.right)

/-- A `portion` interval: the list of atomic intervals that the library
stores (its `_intervals` slot).  Values built by the constructors below are
normalized: sorted, merged, and `[emptyAtom]` when empty. -/
abbrev PIntv : Type := List Atomic

/-- The sentinel atom `(OPEN, +inf, -inf, OPEN)` with which `portion`
represents an empty interval. -/
def emptyAtom : Atomic := ⟨false, .pinf, .ninf, false⟩

/-- The empty `portion` interval. -/
def emptyI : PIntv := [emptyAtom]

/-- `portion`'s `Interval.empty` test: a single atomic interval that
contains nothing. -/
def isEmptyI : PIntv → Bool
  | [a] => !a.nonempty
  | _ => false

/-- Membership of an instant in one atomic interval (strict on open
bounds). -/
def memA (x : ℚ) (a : Atomic) : Bool :=
  (if a.left then decide (a.lower ≤ BVal.fin x) else decide (a.lower < BVal.fin x)) &&
  (if a.right then decide (BVal.fin x ≤ a.upper) else decide (BVal.fin x < a.upper))

/-- Membership of an instant in a `portion` interval. -/
def memI (x : ℚ) (i : PIntv) : Bool := i.any (memA x)

/-- The sort key used by `portion`'s constructor:
`sort(key=lambda i: (i.lower, i.left is Bound.OPEN))`. -/
def atomKeyLe (a b : Atomic) : Bool :=
  decide (a.lower < b.lower) || (decide (a.lower = b.lower) && (a.left || !b.left))

/-- `portion`'s `mergeable(a, b)`: whether two atomic intervals overlap or
touch with at least one closed end, so that the constructor merges them.
`portion` first orders the pair by `(lower, lower-bound-closed-first)` into
`(first, second)` and then tests `first.upper` against `second.lower`; the
two `if` branches below spell out the two possible orderings. -/
def mergeable (a b : Atomic) : Bool :=
  if a.lower < b.lower ∨ (a.lower = b.lower ∧ a.left = true) then
    (if a.upper = b.lower then a.right || b.left else decide (b.lower < a.upper))
  else
    (if b.upper = a.lower then b.right || a.left else decide (a.lower < b.upper))

/-- The merged atom `portion`'s constructor builds from two mergeable
consecutive atoms: on each side the bound of the two that reaches further,
with its own flag, and the closed flag preferred when the bounds tie. -/
def combine (current successor : Atomic) : Atomic :=
  ⟨if current.lower = successor.lower then
      (if current.left then current.left else successor.left)
    else (if min current.lower successor.lower = current.lower then current.left
      else successor.left),
   if current.lower = successor.lower then current.lower
    else min current.lower successor.lower,
   if current.upper = successor.upper then current.upper
    else max current.upper successor.upper,
   if current.upper = successor.upper then
      (if current.right then current.right else successor.right)
    else (if max current.upper successor.upper = current.upper then current.right
      else successor.right)⟩

/-- One pass of the merge sweep of `portion`'s `Interval.__init__`, with
the current atom held in the first argument: while the current atom and its
successor are mergeable they are merged, else the current atom is emitted
and the sweep advances. -/
def mergeStep (a : Atomic) : List Atomic → List Atomic
  | [] => [a]
  | b :: rest => if mergeable a b then mergeStep (combine a b) rest
    else a :: mergeStep b rest

/-- The merge sweep of `portion`'s `Interval.__init__`: repeatedly merge the
current atom with its successor while they are mergeable, else advance. -/
def mergeLoop : List Atomic → List Atomic
  | [] => []
  | a :: rest => mergeStep a rest

/-- The sort key of `portion`'s constructor, as a relation. -/
def atomKeyRel (a b : Atomic) : Prop := atomKeyLe a b = true

instance : DecidableRel atomKeyRel := fun a b => instDecidableEqBool (atomKeyLe a b) true

/-- Sorting step of `portion`'s constructor: a stable sort by
`(lower, lower-bound-open)` (Python's `list.sort` is stable, and any two
stable sorts agree). -/
def sortAtoms (l : List Atomic) : List Atomic := l.insertionSort atomKeyRel

/-- `portion`'s `Interval(...)` constructor on a collection of atoms: drop
empty atoms, represent the empty interval by the sentinel, else sort and
merge. -/
def ofAtoms (atoms : List Atomic) : PIntv :=
  let kept := atoms.filter Atomic.nonempty
  if kept.isEmpty then emptyI else mergeLoop (sortAtoms kept)

/-- `portion`'s `Interval(*intervals)` on interval arguments: empty
arguments are skipped and the atoms of the others are collected. -/
def ofIntervals (is : List PIntv) : PIntv :=
  ofAtoms ((is.filter (fun i => !isEmptyI i)).flatMap id)

/-- The bound-flag adjustment of `portion`'s `Interval.from_atomic`: a
bound at ±infinity is forced open. -/
def boundFlag (v : BVal) (f : Bool) : Bool :=
  if v = BVal.ninf ∨ v = BVal.pinf then false else f

/-- `portion`'s `Interval.from_atomic`: infinite bounds are forced open and
an empty result collapses to the canonical empty interval. -/
def fromAtomic (left : Bool) (lower upper : BVal) (right : Bool) : PIntv :=
  if (Atomic.mk (boundFlag lower left) lower upper (boundFlag upper right)).nonempty
  then [Atomic.mk (boundFlag lower left) lower upper (boundFlag upper right)]
  else emptyI

/-- `portion.closed(a, b)`. -/
def closedI (lower upper : BVal) : PIntv := fromAtomic true lower upper true

/-- Union (`portion`'s `a | b`, which is `Interval(a, b)`). -/
def unionI (a b : PIntv) : PIntv := ofIntervals [a, b]

/-- Intersection of two atomic intervals (largest lower bound and smallest
upper bound, flags from the winning side, both-closed only on ties where
both are closed).  Used to model `portion`'s set intersection. -/
def interAtom (a b : Atomic) : Atomic :=
  let lower := max a.lower b.lower
  let left := if a.lower = b.lower then (a.left && b.left)
    else (if a.lower < b.lower then b.left else a.left)
  let upper := min a.upper b.upper
  let right := if a.upper = b.upper then (a.right && b.right)
    else (if a.upper < b.upper then a.right else b.right)
  ⟨left, lower, upper, right⟩

/-- Intersection (`portion`'s `a & b`), modelled set-semantically by
intersecting atoms pairwise and renormalizing. -/
def interI (a b : PIntv) : PIntv :=
  ofAtoms (a.flatMap (fun i => b.map (interAtom i)))

/-- The whole line, `portion.open(-inf, inf)`. -/
def wholeI : PIntv := [⟨false, .ninf, .pinf, false⟩]

/-- The complement of one atomic interval: the two outside pieces with
inverted flags, as in `portion`'s `Interval.__invert__`. -/
def complAtomPieces (j : Atomic) : List Atomic :=
  [⟨false, .ninf, j.lower, !j.left⟩, ⟨!j.right, j.upper, .pinf, false⟩]

/-- Complement (`portion`'s `~a`): intersection of the complements of the
atoms. -/
def complI (b : PIntv) : PIntv :=
  b.foldl (fun acc j => interI acc (ofAtoms (complAtomPieces j))) wholeI

/-- Difference (`portion`'s `a - b`, implemented there as `a & ~b`). -/
def diffI (a b : PIntv) : PIntv := interI a (complI b)

/-- `portion.to_data`: the list of `(left-closed, lower, upper,
right-closed)` tuples of the stored atoms (for the empty interval this is
the sentinel tuple `(False, +inf, -inf, False)`). -/
def toData (i : PIntv) : List (Bool × BVal × BVal × Bool) :=
  i.map (fun a => (a.left, a.lower, a.upper, a.right))

/-! ## Membership characterization of the portion operations -/

/-- Lower-bound admission of an instant, in disjunctive normal form. -/
def lbOK (l : Bool) (v : BVal) (x : ℚ) : Prop :=
  v < BVal.fin x ∨ (v = BVal.fin x ∧ l = true)

/-- Upper-bound admission of an instant, in disjunctive normal form. -/
def ubOK (r : Bool) (v : BVal) (x : ℚ) : Prop :=
  BVal.fin x < v ∨ (BVal.fin x = v ∧ r = true)

/-! ## The `utils.py` interval layer -/

/-- A row of a period table: a `begin` and an `end` timestamp and a status
label.  The timestamps are `portion` bound values so that the rows produced
by `interval_to_df` on an empty interval (`+inf`/`-inf`) are representable;
rows coming from the loaders carry finite timestamps. -/
structure PRow : Type where
  begin_ : BVal
  end_ : BVal
  status : String
deriving DecidableEq, Repr

/-- `df_to_interval` of `src/utils.py`: converts a dataframe with columns
`begin` and `end` into a `portion` interval, merging entries that overlap
(`P.Interval(*[P.closed(row['begin'], row['end']) for row in ...])`). -/
def df_to_interval (df : List PRow) : PIntv :=
  ofIntervals (df.map (fun r => closedI r.begin_ r.end_))

/-- `interval_to_df` of `src/utils.py`: converts a `portion` interval into a
dataframe with columns `begin` and `end` (one row per tuple of
`P.to_data`, the bound flags being dropped). -/
def interval_to_df (i : PIntv) : List (BVal × BVal) :=
  (toData i).map (fun d => (d.2.1, d.2.2.1))

/-- `pandas`' `Series.unique` on status labels: first occurrences in input
order. -/
def uniqueStatuses : List String → List String
  | [] => []
  | s :: rest => s :: (uniqueStatuses rest).filter (fun t => t ≠ s)

/-- `make_status_intervals` of `src/utils.py`:
`{s: df_to_interval(df[df.status == s]) for s in df.status.unique()}`. -/
def make_status_intervals (df : List PRow) : List (String × PIntv) :=
  (uniqueStatuses (df.map PRow.status)).map
    (fun s => (s, df_to_interval (df.filter (fun r => r.status = s))))

/-- Python dictionary access on a status partition. -/
def lookupStatus (s : String) : List (String × PIntv) → Option PIntv
  | [] => none
  | e :: rest => if e.1 = s then some e.2 else lookupStatus s rest

/-- Flattening a status partition back to a period table, the way
`main_interval_logic` does it: `interval_to_df(i).assign(status=s)` for
each label, concatenated. -/
def flattenPartition (p : List (String × PIntv)) : List PRow :=
  p.flatMap (fun e => (interval_to_df e.2).map (fun bd => ⟨bd.1, bd.2, e.1⟩))

/-- The status partition of one source as consumed by the merge logic: one
`portion` interval per priority label.  (A label missing from a source's
dictionary behaves as the empty interval; `interval_merge_logic` and
`main_interval_logic` only read the four labels modelled here.) -/
structure SPart : Type where
  p0 : PIntv
  p1 : PIntv
  p2 : PIntv
  p3 : PIntv

/-- The reconciled partition (the Python function returns a dict with keys
`P1`, `P2`, `P3`). -/
structure MergedPart : Type where
  p1 : PIntv
  p2 : PIntv
  p3 : PIntv

/-- `interval_merge_logic` of `src/utils.py`:
`P3 = lt['P3'] | oo['P3']`; `P2 = (lt['P2'] | oo['P2']) - P3`;
`P1 = oo['P1'] - (P2 | P3)`. -/
def interval_merge_logic (lt oo : SPart) : MergedPart :=
  let P3 := unionI lt.p3 oo.p3
  let P2 := diffI (unionI lt.p2 oo.p2) P3
  let P1 := diffI oo.p1 (unionI P2 P3)
  { p1 := P1, p2 := P2, p3 := P3 }

/-- The dictionary `intervals` computed inside `main_interval_logic` of
`src/utils.py` just before it is flattened to a dataframe: when
`P0_has_priority` is set, `oo['P0']` is first subtracted from every
non-`P0` entry of both `lt` and `oo`; then `lt['P2'] -= lt['P3']`,
`oo['P2'] -= oo['P3']`, `oo['P1'] -= oo['P2'] | oo['P3']`, and finally
`interval_merge_logic` is applied. -/
def main_interval_partition (lt oo : SPart) (P0_has_priority : Bool) : MergedPart :=
  let lt' := if P0_has_priority then
      { lt with p1 := diffI lt.p1 oo.p0, p2 := diffI lt.p2 oo.p0, p3 := diffI lt.p3 oo.p0 }
    else lt
  let oo' := if P0_has_priority then
      { oo with p1 := diffI oo.p1 oo.p0, p2 := diffI oo.p2 oo.p0, p3 := diffI oo.p3 oo.p0 }
    else oo
  let lt'' := { lt' with p2 := diffI lt'.p2 lt'.p3 }
  let oo'' := { oo' with p2 := diffI oo'.p2 oo'.p3 }
  let oo''' := { oo'' with p1 := diffI oo''.p1 (unionI oo''.p2 oo''.p3) }
  interval_merge_logic lt'' oo'''

/-- `main_interval_logic` of `src/utils.py`: the reconciled partition
flattened to a dataframe, each label rendered `"{label} consistent"`. -/
def main_interval_logic (lt oo : SPart) (P0_has_priority : Bool) : List PRow :=
  let ivs := main_interval_partition lt oo P0_has_priority
  [("P1", ivs.p1), ("P2", ivs.p2), ("P3", ivs.p3)].flatMap
    (fun e => (interval_to_df e.2).map (fun bd => ⟨bd.1, bd.2, e.1 ++ " consistent"⟩))

/-- The formula of §4.3 of the specification, as worded: every label
(including `P1`) is combined across the two sources by union, and the
strictly higher-priority reconciled sets are then subtracted in descending
order. -/
def spec_reconcile_formula (lt oo : SPart) : MergedPart :=
  let P3 := unionI lt.p3 oo.p3
  let P2 := diffI (unionI lt.p2 oo.p2) P3
  let P1 := diffI (unionI lt.p1 oo.p1) (unionI P2 P3)
  { p1 := P1, p2 := P2, p3 := P3 }

/-- Source-A partition for the `C2` counterexample: only `P1` is
inhabited. -/
def ltC2 : SPart :=
  { p0 := emptyI, p1 := closedI (BVal.fin 0) (BVal.fin 1), p2 := emptyI, p3 := emptyI }

/-- Source-B partition for the `C2` counterexample: everything empty. -/
def ooC2 : SPart :=
  { p0 := emptyI, p1 := emptyI, p2 := emptyI, p3 := emptyI }

/-! ## The tripmatch layer (`src/src/tripmatch.py`) -/

/-- A row of an interval dataframe as used by the tripmatch queries: the
test-suite's `name`, the closed `begin`/`end` interval, and the begin/end
locations that `datlocated_rows_from_intervals` projects out. -/
structure IRow : Type where
  name : String
  begin_ : ℚ
  end_ : ℚ
  begin_lat : ℚ
  begin_lng : ℚ
  end_lat : ℚ
  end_lng : ℚ
deriving DecidableEq, Repr

/-- `date_in_interval` of `src/src/tripmatch.py` (duplicated in
`src/tripmatch.py`): `interval_begin <= date and date <= interval_end`. -/
def date_in_interval (date interval_begin interval_end : ℚ) : Bool :=
  decide (interval_begin ≤ date) && decide (date ≤ interval_end)

/-- The `sort_values(by=['begin'], ascending=True)` key, as a relation. -/
def rowKeyRel (r s : IRow) : Prop := r.begin_ ≤ s.begin_

instance : DecidableRel rowKeyRel :=
  fun r s => inferInstanceAs (Decidable (r.begin_ ≤ s.begin_))

instance : IsTotal IRow rowKeyRel := ⟨fun r s => le_total r.begin_ s.begin_⟩

instance : IsTrans IRow rowKeyRel := ⟨fun _ _ _ h₁ h₂ => le_trans h₁ h₂⟩

/-- `sort_values(by=['begin'], ascending=True)` (pandas' sort is stable;
any two stable sorts agree). -/
def sortByBegin (df : List IRow) : List IRow := df.insertionSort rowKeyRel

/-- `next_interval_including_date` of `src/src/tripmatch.py`: consume the
sorted cursor (modelled by the remaining list); return the first row whose
closed interval contains `date`; return `None` as soon as a consumed row
has `begin > date`; return `None` on exhaustion (the `StopIteration` is
caught). -/
def next_interval_including_date (date : ℚ) : List IRow → Option IRow
  | [] => none
  | row :: rest =>
    if date_in_interval date row.begin_ row.end_ then some row
    else if date < row.begin_ then none
    else next_interval_including_date date rest

/-- The observable outcome of `next_trip_including_date` of
`src/tripmatch.py`: a returned row, a returned `None` (the early exit on a
consumed row with `begin > date`), or an uncaught `StopIteration` escaping
the call. -/
inductive TripResult : Type where
  | found : IRow → TripResult
  | noneBefore : TripResult
  | raised : TripResult
deriving DecidableEq, Repr

/-- `next_trip_including_date` of `src/tripmatch.py`: the same cursor scan
as `next_interval_including_date`, but with no `try/except` around the
loop.  `iterrows()` yields `(index, Series)` tuples, which are always
truthy, so `while rowtuple := next(generator)` can only leave through the
two `return` statements in its body — the trailing `return None` is
unreachable — and when the cursor is exhausted the `StopIteration` raised
by `next` escapes the function (`.raised`). -/
def next_trip_including_date (date : ℚ) : List IRow → TripResult
  | [] => .raised
  | row :: rest =>
    if date_in_interval date row.begin_ row.end_ then .found row
    else if date < row.begin_ then .noneBefore
    else next_trip_including_date date rest

/-- The generator body of `intervals_including_date_old`: yield every
containing row, stop early at the first row with `begin > date`. -/
def scanIncluding (date : ℚ) : List IRow → List IRow
  | [] => []
  | row :: rest =>
    if date_in_interval date row.begin_ row.end_ then row :: scanIncluding date rest
    else if date < row.begin_ then []
    else scanIncluding date rest

/-- `intervals_including_date_old` of `src/src/tripmatch.py`: sort by
`begin`, then scan linearly with the early exit. -/
def intervals_including_date_old (date : ℚ) (df : List IRow) : List IRow :=
  scanIncluding date (sortByBegin df)

/-- `intervals_including_date` of `src/src/tripmatch.py`: sort by `begin`,
then the vectorized filter `(begin <= date) & (date <= end)`. -/
def intervals_including_date (date : ℚ) (df : List IRow) : List IRow :=
  (sortByBegin df).filter (fun r => decide (r.begin_ ≤ date) && decide (date ≤ r.end_))

/-- A point event (datloc) emitted by `datlocated_rows_from_intervals`. -/
structure Datloc : Type where
  date : ℚ
  is_begin : Bool
  lat : ℚ
  lng : ℚ
  row : IRow
deriving DecidableEq, Repr

/-- `datlocated_rows_from_intervals` of `src/src/tripmatch.py`: each row
yields its begin instant and then its end instant, each with its
location. -/
def datlocated_rows_from_intervals (df : List IRow) : List Datloc :=
  df.flatMap (fun row =>
    [⟨row.begin_, true, row.begin_lat, row.begin_lng, row⟩,
     ⟨row.end_, false, row.end_lat, row.end_lng, row⟩])

/-- `match_dates_to_intervals` of `src/src/tripmatch.py`: every datloc of
the first frame paired with every interval of the second frame that
contains its date. -/
def match_dates_to_intervals (dates_df intervals_df : List IRow) : List (Datloc × IRow) :=
  (datlocated_rows_from_intervals dates_df).flatMap
    (fun datloc => (intervals_including_date datloc.date intervals_df).map
      (fun interval => (datloc, interval)))

/-- `interval_equals` of `src/src/tripmatch.py`: equality of the `begin`
and `end` bounds. -/
def interval_equals (s1 s2 : IRow) : Bool :=
  decide (s1.begin_ = s2.begin_) && decide (s1.end_ = s2.end_)

/-- A group of matches for one destination interval: the dictionary
`{'trip': ..., 'locations': [...]}` of `find_matching_date_locations`. -/
structure MatchGroup : Type where
  trip : IRow
  locations : List Datloc
deriving DecidableEq, Repr

/-- The accumulation loop of `find_matching_date_locations`, with the
current group in the second argument: on a destination change the previous
group is yielded only when it has more than one location; nothing is
yielded after the loop. -/
def fmdlLoop : List (Datloc × IRow) → Option MatchGroup → List MatchGroup
  | [], _ => []
  | (loc, trip) :: rest, none => fmdlLoop rest (some ⟨trip, [loc]⟩)
  | (loc, trip) :: rest, some m =>
    if interval_equals m.trip trip then fmdlLoop rest (some ⟨m.trip, m.locations ++ [loc]⟩)
    else (if 1 < m.locations.length then [m] else []) ++ fmdlLoop rest (some ⟨trip, [loc]⟩)

/-- `find_matching_date_locations` of `src/src/tripmatch.py`. -/
def find_matching_date_locations (on_off lifetime_trips : List IRow) : List MatchGroup :=
  fmdlLoop (match_dates_to_intervals on_off lifetime_trips) none

/-- Grouping of consecutive matches by destination-interval identity
(helper for the amended `C8`): the accumulating pass, always keeping the
final group. -/
def chunkAux : List (Datloc × IRow) → MatchGroup → List MatchGroup
  | [], g => [g]
  | (loc, trip) :: rest, g =>
    if interval_equals g.trip trip then chunkAux rest ⟨g.trip, g.locations ++ [loc]⟩
    else g :: chunkAux rest ⟨trip, [loc]⟩

/-- All groups of consecutive matches sharing one destination interval, in
order, the final group included. -/
def chunkGroups : List (Datloc × IRow) → List MatchGroup
  | [] => []
  | (loc, trip) :: rest => chunkAux rest ⟨trip, [loc]⟩

/-! ## The period constructor (`time_tuples_to_periods`) -/

/-- A raw table row consumed by `time_tuples_to_periods`: a mapping from
column name to timestamp (`r[b]` in the Python). -/
def TRow : Type := String → ℚ

/-- The dictionary of additional information produced by one metadata
function. -/
def TAttrs : Type := List (String × String)

/-- One produced period: `{'begin': r[b], 'end': r[e], **d(r)}`. -/
structure TPeriod : Type where
  begin_ : ℚ
  end_ : ℚ
  attrs : TAttrs

/-- The periods produced from one row:
`[{'begin': r[b], 'end': r[e], **d(r)} for b, e, d in zip(columns, columns[1:], extra_info)]`. -/
def periodsOfRow (columns : List String) (extra_info : List (TRow → TAttrs))
    (r : TRow) : List TPeriod :=
  ((columns.zip columns.tail).zip extra_info).map (fun z => ⟨r z.1.1, r z.1.2, z.2 r⟩)

/-- `time_tuples_to_periods` of `src/src/tripmatch.py` (duplicated in
`src/tripmatch.py` and `src/src/utils.py`): asserts
`len(columns) == len(extra_info) + 1` before touching any row (an
`AssertionError`, modelled as `Except.error`), then produces the per-row
periods, concatenated (`apply(...).explode().to_list()`). -/
def time_tuples_to_periods (table : List TRow) (columns : List String)
    (extra_info : List (TRow → TAttrs)) : Except String (List TPeriod) :=
  if columns.length = extra_info.length + 1 then
    .ok (table.flatMap (periodsOfRow columns extra_info))
  else
    .error "The length of additional information should correspond to the number of generated periods (N-1)."

/-! ## The NCLS bulk overlap join (`src/create_grand_dataframe.py`) -/

/-- A row of the frames joined by `merge_over_time_intervals2`, reduced to
its interval: `start_unixts` and `end_unixts`, the int64 nanosecond views
of the timestamp columns. -/
structure NRow : Type where
  start : ℤ
  end_ : ℤ
deriving DecidableEq, Repr

/-- The row pairings produced by `merge_over_time_intervals2` of
`src/create_grand_dataframe.py` (the function then joins the paired rows
side by side).  The pairing itself is computed by the third-party `ncls`
library (`NCLS(df1.start, df1.end, df1.index).all_overlaps_both(df2...)`),
which is not part of this repository; it is modelled here from the nested
containment list semantics that `ncls` implements: a database interval
`(start, end)` matches a query `(qstart, qend)` iff `start < qend` and
`end > qstart` — both comparisons strict, so the intervals behave as
half-open and exact boundary touches are not reported. -/
def merge_over_time_intervals2 (df1 df2 : List NRow) : List (NRow × NRow) :=
  df2.flatMap (fun j =>
    (df1.filter (fun i => decide (i.start < j.end_) && decide (j.start < i.end_))).map
      (fun i => (i, j)))

/-- The `a:[05,07], b:[09,11], c:[10,13], d:[11,14]` interval frame of the
repository's `test_tripmatch.py`, timestamps rendered as minutes since
2022-11-01T00:00 (day `d` is `d * 1440`; locations are irrelevant to these
queries). -/
def tmRows : List IRow :=
  [⟨"a", 7200, 10080, 0, 0, 0, 0⟩, ⟨"b", 12960, 15840, 0, 0, 0, 0⟩,
   ⟨"c", 14400, 18720, 0, 0, 0, 0⟩, ⟨"d", 15840, 20160, 0, 0, 0, 0⟩]

/-- The point-event source frame (`on_off` side) of the `C8`
counterexample: rows `A:[05,07]` and `B:[09,11]` in minutes since
2022-11-01. -/
def datesC8 : List IRow :=
  [⟨"A", 7200, 10080, 0, 0, 0, 0⟩, ⟨"B", 12960, 15840, 0, 0, 0, 0⟩]

/-- The destination intervals (`lifetime_trips` side) of the `C8`
counterexample: `a:[05,07]`, `b:[09,11]`, `c:[10,13]`. -/
def tripsC8 : List IRow :=
  [⟨"a", 7200, 10080, 0, 0, 0, 0⟩, ⟨"b", 12960, 15840, 0, 0, 0, 0⟩,
   ⟨"c", 14400, 18720, 0, 0, 0, 0⟩]

/-- The time columns of the docstring example of `time_tuples_to_periods`. -/
def columnsC5 : List String := ["request_ts", "begintrip_ts", "dropoff_ts"]

/-- The metadata functions of the docstring example: the first produced
period is a `P2` period, the second a `P3` period. -/
def extraC5 : List (TRow → TAttrs) :=
  [fun _ => [("status", "P2")], fun _ => [("status", "P3")]]

/-- The docstring example row, timestamps in minutes since midnight
(`3:47 PM`, `4:00 PM`, `4:13 PM`). -/
def rowC5 : TRow :=
  fun c => if c = "begintrip_ts" then 960 else if c = "dropoff_ts" then 973 else 947

/-! ## Normal form of built interval sets, towards idempotence (C4) -/

/-- A period-table row with finite timestamps (every row a loader produces;
only the `interval_to_df` export of an empty interval carries
infinities). -/
def finRow (r : PRow) : Bool :=
  (match r.begin_ with | .fin _ => true | _ => false) &&
  (match r.end_ with | .fin _ => true | _ => false)

/-- An atom of a built interval set: closed on both sides, finite bounds,
nonempty. -/
def goodAtom (a : Atomic) : Bool :=
  a.left && a.right && a.nonempty &&
    (match a.lower with | .fin _ => true | _ => false) &&
    (match a.upper with | .fin _ => true | _ => false)

instance : IsTotal Atomic atomKeyRel := by
  constructor
  intro a b
  unfold atomKeyRel atomKeyLe
  simp only [Bool.or_eq_true, Bool.and_eq_true, decide_eq_true_eq]
  rcases lt_trichotomy a.lower b.lower with h | h | h
  · exact Or.inl (Or.inl h)
  · cases hl : a.left
    · cases hr : b.left
      · exact Or.inl (Or.inr ⟨h, Or.inr rfl⟩)
      · exact Or.inr (Or.inr ⟨h.symm, Or.inl rfl⟩)
    · exact Or.inl (Or.inr ⟨h, Or.inl rfl⟩)
  · exact Or.inr (Or.inl h)

instance : IsTrans Atomic atomKeyRel := by
  constructor
  intro a b c hab hbc
  unfold atomKeyRel atomKeyLe at hab hbc ⊢
  simp only [Bool.or_eq_true, Bool.and_eq_true, decide_eq_true_eq] at hab hbc ⊢
  rcases hab with h₁ | ⟨h₁, hf₁⟩ <;> rcases hbc with h₂ | ⟨h₂, hf₂⟩
  · exact Or.inl (lt_trans h₁ h₂)
  · exact Or.inl (h₂ ▸ h₁)
  · exact Or.inl (h₁ ▸ h₂)
  · refine Or.inr ⟨h₁.trans h₂, ?_⟩
    rcases hf₁ with hf₁ | hf₁
    · exact Or.inl hf₁
    · rcases hf₂ with hf₂ | hf₂
      · cases hb : b.left
        · rw [hb] at hf₂
          simp at hf₂
        · rw [hb] at hf₁
          simp at hf₁
      · exact Or.inr hf₂

/-- Equality of two status partitions as Python dictionaries: every label
looks up to the same interval (labels outside both key sets look up to
`None` on both sides). -/
def partitionEqB (p q : List (String × PIntv)) : Bool :=
  (p.map Prod.fst ++ q.map Prod.fst).all
    (fun s => decide (lookupStatus s p = lookupStatus s q))

/-- A period table exercising merging, an invalid row and a degenerate
point row, used as the `C4` witness input. -/
def dfC4 : List PRow :=
  [⟨BVal.fin 0, BVal.fin 2, "P1"⟩, ⟨BVal.fin 1, BVal.fin 3, "P1"⟩,
   ⟨BVal.fin 5, BVal.fin 4, "P2"⟩, ⟨BVal.fin 6, BVal.fin 6, "P3"⟩]

/-- Whether a period row survives `P.closed(begin, end)` with a nonempty
interval: for finite timestamps this is `begin <= end`. -/
def rowValid (r : PRow) : Bool := !isEmptyI (closedI r.begin_ r.end_)

/-- Period table with one valid `P1` row. -/
def dfC6base : List PRow := [⟨BVal.fin 0, BVal.fin 1, "P1"⟩]

/-- The same table plus one invalid row (`begin > end`). -/
def dfC6extra : List PRow :=
  [⟨BVal.fin 0, BVal.fin 1, "P1"⟩, ⟨BVal.fin 5, BVal.fin 3, "P1"⟩]

theorem BVal.le_def {a b : BVal} : a ≤ b ↔ BVal.ble a b = true := Iff.rfl

@[simp] theorem BVal.ninf_le (a : BVal) : BVal.ninf ≤ a := by
  cases a <;> simp [BVal.le_def, BVal.ble]

@[simp] theorem BVal.le_pinf (a : BVal) : a ≤ BVal.pinf := by
  cases a <;> simp [BVal.le_def, BVal.ble]

@[simp] theorem BVal.fin_le_fin {a b : ℚ} : BVal.fin a ≤ BVal.fin b ↔ a ≤ b := by
  simp [BVal.le_def, BVal.ble]

@[simp] theorem BVal.fin_lt_fin {a b : ℚ} : BVal.fin a < BVal.fin b ↔ a < b := by
  rw [lt_iff_le_not_le, lt_iff_le_not_le, BVal.fin_le_fin, BVal.fin_le_fin]

@[simp] theorem BVal.not_pinf_le_fin {a : ℚ} : ¬ (BVal.pinf ≤ BVal.fin a) := by
  simp [BVal.le_def, BVal.ble]

@[simp] theorem BVal.not_fin_le_ninf {a : ℚ} : ¬ (BVal.fin a ≤ BVal.ninf) := by
  simp [BVal.le_def, BVal.ble]

@[simp] theorem BVal.not_pinf_le_ninf : ¬ (BVal.pinf ≤ BVal.ninf) := by
  simp [BVal.le_def, BVal.ble]

theorem memA_iff {x : ℚ} {a : Atomic} :
    memA x a = true ↔ lbOK a.left a.lower x ∧ ubOK a.right a.upper x := by
  unfold memA lbOK ubOK
  cases hl : a.left <;> cases hr : a.right <;> simp [le_iff_lt_or_eq]

theorem lbOK_of_lt {l₁ l₂ : Bool} {v₁ v₂ : BVal} {x : ℚ} (h : v₁ < v₂)
    (h₂ : lbOK l₂ v₂ x) : lbOK l₁ v₁ x := by
  rcases h₂ with h₂ | ⟨h₂, _⟩
  · exact Or.inl (lt_trans h h₂)
  · exact Or.inl (h₂ ▸ h)

theorem ubOK_of_lt {r₁ r₂ : Bool} {v₁ v₂ : BVal} {x : ℚ} (h : v₂ < v₁)
    (h₂ : ubOK r₂ v₂ x) : ubOK r₁ v₁ x := by
  rcases h₂ with h₂ | ⟨h₂, _⟩
  · exact Or.inl (lt_trans h₂ h)
  · exact Or.inl (h₂ ▸ h)

theorem not_lbOK_iff {l : Bool} {v : BVal} {x : ℚ} :
    ¬ lbOK l v x ↔ (BVal.fin x < v ∨ (BVal.fin x = v ∧ l = false)) := by
  unfold lbOK
  rcases lt_trichotomy v (BVal.fin x) with h | h | h
  · simp [h, asymm h, (ne_of_lt h).symm]
  · subst h; cases l <;> simp [lt_irrefl]
  · simp [h, asymm h, (ne_of_lt h).symm, ne_of_lt h]

theorem not_ubOK_iff {r : Bool} {v : BVal} {x : ℚ} :
    ¬ ubOK r v x ↔ (v < BVal.fin x ∨ (v = BVal.fin x ∧ r = false)) := by
  unfold ubOK
  rcases lt_trichotomy v (BVal.fin x) with h | h | h
  · simp [h, asymm h, ne_of_lt h, (ne_of_lt h).symm]
  · subst h; cases r <;> simp [lt_irrefl]
  · simp [h, asymm h, ne_of_lt h, (ne_of_lt h).symm]

/-- An atom some instant inhabits is one `portion` keeps. -/
theorem nonempty_of_memA {x : ℚ} {a : Atomic} (h : memA x a = true) :
    a.nonempty = true := by
  rw [memA_iff] at h
  obtain ⟨hl, hu⟩ := h
  unfold Atomic.nonempty
  rcases hl with hl | ⟨hl, hfl⟩ <;> rcases hu with hu | ⟨hu, hfr⟩
  · simp [lt_trans hl hu]
  · simp [hu ▸ hl]
  · simp [hl ▸ hu]
  · simp [hl.trans hu, hfl, hfr]

theorem memA_emptyAtom {x : ℚ} : memA x emptyAtom = false := by
  unfold memA emptyAtom
  simp only []
  have : ¬ (BVal.pinf < BVal.fin x) := fun h => absurd (le_of_lt h) (by simp)
  simp [this]

theorem memI_of_isEmptyI {x : ℚ} {i : PIntv} (h : isEmptyI i = true) :
    memI x i = false := by
  match i with
  | [] => rfl
  | [a] =>
    simp only [isEmptyI, Bool.not_eq_true'] at h
    simp only [memI, List.any_cons, List.any_nil, Bool.or_false]
    cases hm : memA x a
    · rfl
    · exact absurd (nonempty_of_memA hm) (by simp [h])
  | a :: b :: rest => simp [isEmptyI] at h

theorem lb_combine {a b : Atomic} {x : ℚ} :
    lbOK (combine a b).left (combine a b).lower x ↔
      lbOK a.left a.lower x ∨ lbOK b.left b.lower x := by
  unfold combine
  rcases lt_trichotomy a.lower b.lower with h | h | h
  · have hne : a.lower ≠ b.lower := ne_of_lt h
    have hmin : min a.lower b.lower = a.lower := min_eq_left (le_of_lt h)
    simp only [if_neg hne, hmin, if_pos rfl]
    exact ⟨Or.inl, fun hh => hh.elim id (fun h₂ => lbOK_of_lt h h₂)⟩
  · simp only [if_pos h]
    unfold lbOK
    rw [← h]
    cases a.left <;> cases b.left <;> simp <;> tauto
  · have hne : a.lower ≠ b.lower := (ne_of_lt h).symm
    have hmin : min a.lower b.lower = b.lower := min_eq_right (le_of_lt h)
    have hmb : min a.lower b.lower ≠ a.lower := by rw [hmin]; exact ne_of_lt h
    simp only [if_neg hne, hmin, if_neg (hmin ▸ hmb)]
    exact ⟨Or.inr, fun hh => hh.elim (fun h₂ => lbOK_of_lt h h₂) id⟩

theorem ub_combine {a b : Atomic} {x : ℚ} :
    ubOK (combine a b).right (combine a b).upper x ↔
      ubOK a.right a.upper x ∨ ubOK b.right b.upper x := by
  unfold combine
  rcases lt_trichotomy a.upper b.upper with h | h | h
  · have hne : a.upper ≠ b.upper := ne_of_lt h
    have hmax : max a.upper b.upper = b.upper := max_eq_right (le_of_lt h)
    have hmb : max a.upper b.upper ≠ a.upper := by rw [hmax]; exact (ne_of_lt h).symm
    simp only [if_neg hne, hmax, if_neg (hmax ▸ hmb)]
    exact ⟨Or.inr, fun hh => hh.elim (fun h₂ => ubOK_of_lt h h₂) id⟩
  · simp only [if_pos h]
    unfold ubOK
    rw [← h]
    cases a.right <;> cases b.right <;> simp <;> tauto
  · have hne : a.upper ≠ b.upper := (ne_of_lt h).symm
    have hmax : max a.upper b.upper = a.upper := max_eq_left (le_of_lt h)
    simp only [if_neg hne, hmax, if_pos rfl]
    exact ⟨Or.inl, fun hh => hh.elim id (fun h₂ => ubOK_of_lt h h₂)⟩

/-- If an instant sits at or past `a`'s upper bound (outside `a`) and at or
before `b`'s lower bound (outside `b`), atoms `a` and `b` cannot be
mergeable: there would be a gap between them.  First impossibility pattern
used in `memA_combine`. -/
theorem merge_gap₁ {a b : Atomic} {x : ℚ} (h : mergeable a b = true)
    (hal : lbOK a.left a.lower x)
    (hna : a.upper < BVal.fin x ∨ (a.upper = BVal.fin x ∧ a.right = false))
    (hnb : BVal.fin x < b.lower ∨ (BVal.fin x = b.lower ∧ b.left = false)) : False := by
  have hux : a.upper ≤ BVal.fin x := hna.elim le_of_lt (fun p => le_of_eq p.1)
  have hxb : BVal.fin x ≤ b.lower := hnb.elim le_of_lt (fun p => le_of_eq p.1)
  unfold mergeable at h
  by_cases hc : a.lower < b.lower ∨ (a.lower = b.lower ∧ a.left = true)
  · rw [if_pos hc] at h
    by_cases heq : a.upper = b.lower
    · rw [if_pos heq] at h
      have hra : a.right = false := by
        rcases hna with hna | ⟨_, hna⟩
        · exact absurd hna (not_lt.mpr (hxb.trans (le_of_eq heq.symm)))
        · exact hna
      have hlb : b.left = false := by
        rcases hnb with hnb | ⟨_, hnb⟩
        · exact absurd hnb (not_lt.mpr ((le_of_eq heq.symm).trans hux))
        · exact hnb
      rw [hra, hlb] at h
      simp at h
    · rw [if_neg heq] at h
      exact absurd (of_decide_eq_true h) (not_lt.mpr (hux.trans hxb))
  · push_neg at hc
    obtain ⟨hba, himp⟩ := hc
    rcases hal with hal | ⟨hale, half⟩
    · exact absurd hal (not_lt.mpr (hxb.trans hba))
    · have heq : a.lower = b.lower := le_antisymm ((le_of_eq hale).trans hxb) hba
      exact absurd half (himp heq)

/-- Mirror image of `merge_gap₁`: the instant is outside `b` above and
outside `a` below. -/
theorem merge_gap₂ {a b : Atomic} {x : ℚ} (h : mergeable a b = true)
    (hbl : lbOK b.left b.lower x)
    (hnb : b.upper < BVal.fin x ∨ (b.upper = BVal.fin x ∧ b.right = false))
    (hna : BVal.fin x < a.lower ∨ (BVal.fin x = a.lower ∧ a.left = false)) : False := by
  have hux : b.upper ≤ BVal.fin x := hnb.elim le_of_lt (fun p => le_of_eq p.1)
  have hxa : BVal.fin x ≤ a.lower := hna.elim le_of_lt (fun p => le_of_eq p.1)
  have hblx : b.lower ≤ BVal.fin x := hbl.elim le_of_lt (fun p => le_of_eq p.1)
  unfold mergeable at h
  by_cases hc : a.lower < b.lower ∨ (a.lower = b.lower ∧ a.left = true)
  · rcases hc with hc | ⟨hceq, hcl⟩
    · exact absurd hc (not_lt.mpr (hblx.trans hxa))
    · have h2 : BVal.fin x = a.lower := le_antisymm hxa ((le_of_eq hceq).trans hblx)
      rcases hna with hna | ⟨_, hna⟩
      · exact absurd hna (not_lt.mpr (le_of_eq h2.symm))
      · rw [hna] at hcl
        exact Bool.false_ne_true hcl
  · rw [if_neg hc] at h
    by_cases heq : b.upper = a.lower
    · rw [if_pos heq] at h
      have hrb : b.right = false := by
        rcases hnb with hnb | ⟨_, hnb⟩
        · exact absurd hnb (not_lt.mpr (hxa.trans (le_of_eq heq.symm)))
        · exact hnb
      have hla : a.left = false := by
        rcases hna with hna | ⟨_, hna⟩
        · exact absurd hna (not_lt.mpr ((le_of_eq heq.symm).trans hux))
        · exact hna
      rw [hrb, hla] at h
      simp at h
    · rw [if_neg heq] at h
      exact absurd (of_decide_eq_true h) (not_lt.mpr (hux.trans hxa))

/-- Membership in the merged atom of two mergeable atoms is membership in
either atom: `portion`'s merge step is exact set union. -/
theorem memA_combine {a b : Atomic} {x : ℚ} (h : mergeable a b = true) :
    memA x (combine a b) = (memA x a || memA x b) := by
  apply Bool.eq_iff_iff.mpr
  rw [Bool.or_eq_true, memA_iff, memA_iff, memA_iff, lb_combine, ub_combine]
  constructor
  · rintro ⟨hl | hl, hu | hu⟩
    · exact Or.inl ⟨hl, hu⟩
    · by_cases ha : ubOK a.right a.upper x
      · exact Or.inl ⟨hl, ha⟩
      by_cases hbl : lbOK b.left b.lower x
      · exact Or.inr ⟨hbl, hu⟩
      · exact absurd (merge_gap₁ h hl (not_ubOK_iff.mp ha) (not_lbOK_iff.mp hbl)) id
    · by_cases hb : ubOK b.right b.upper x
      · exact Or.inr ⟨hl, hb⟩
      by_cases hal : lbOK a.left a.lower x
      · exact Or.inl ⟨hal, hu⟩
      · exact absurd (merge_gap₂ h hl (not_ubOK_iff.mp hb) (not_lbOK_iff.mp hal)) id
    · exact Or.inr ⟨hl, hu⟩
  · rintro (⟨hl, hu⟩ | ⟨hl, hu⟩)
    · exact ⟨Or.inl hl, Or.inl hu⟩
    · exact ⟨Or.inr hl, Or.inr hu⟩

/-- The merge sweep preserves membership (one pass). -/
theorem any_mergeStep {x : ℚ} (l : List Atomic) (a : Atomic) :
    (mergeStep a l).any (memA x) = (memA x a || l.any (memA x)) := by
  induction l generalizing a with
  | nil => simp [mergeStep]
  | cons b rest ih =>
    unfold mergeStep
    by_cases hm : mergeable a b = true
    · rw [if_pos hm, ih, memA_combine hm]
      simp [Bool.or_assoc]
    · rw [if_neg hm]
      simp [List.any_cons, ih]

/-- The merge sweep preserves membership. -/
theorem any_mergeLoop {x : ℚ} (l : List Atomic) :
    (mergeLoop l).any (memA x) = l.any (memA x) := by
  cases l with
  | nil => rfl
  | cons a rest => simp [mergeLoop, any_mergeStep]

/-- Permutations do not change `any`. -/
theorem any_of_perm {α : Type} {l₁ l₂ : List α} (h : l₁.Perm l₂) (p : α → Bool) :
    l₁.any p = l₂.any p := by
  apply Bool.eq_iff_iff.mpr
  rw [List.any_eq_true, List.any_eq_true]
  exact ⟨fun ⟨y, hy, hp⟩ => ⟨y, h.mem_iff.mp hy, hp⟩,
         fun ⟨y, hy, hp⟩ => ⟨y, h.mem_iff.mpr hy, hp⟩⟩

theorem any_sortAtoms {x : ℚ} (l : List Atomic) :
    (sortAtoms l).any (memA x) = l.any (memA x) :=
  any_of_perm (List.perm_insertionSort atomKeyRel l) (memA x)

/-- Membership in `portion`'s constructor applied to a list of atoms is
membership in one of the atoms: normalization is set-exact. -/
theorem memI_ofAtoms {x : ℚ} (atoms : List Atomic) :
    memI x (ofAtoms atoms) = atoms.any (memA x) := by
  unfold ofAtoms memI
  by_cases he : (atoms.filter Atomic.nonempty).isEmpty
  · rw [if_pos he]
    have h1 : emptyI.any (memA x) = false := by
      simp [emptyI, memA_emptyAtom]
    rw [h1]
    rw [List.isEmpty_iff] at he
    have : atoms.any (memA x) = atoms.any fun a => Atomic.nonempty a && memA x a := by
      apply Bool.eq_iff_iff.mpr
      rw [List.any_eq_true, List.any_eq_true]
      constructor
      · rintro ⟨a, ha, hm⟩
        exact ⟨a, ha, by rw [nonempty_of_memA hm, hm]; rfl⟩
      · rintro ⟨a, ha, hm⟩
        exact ⟨a, ha, ((Bool.and_eq_true _ _).mp hm).2⟩
    rw [this, ← List.any_filter, he]
    rfl
  · rw [if_neg he]
    rw [any_mergeLoop, any_sortAtoms, List.any_filter]
    apply Bool.eq_iff_iff.mpr
    rw [List.any_eq_true, List.any_eq_true]
    constructor
    · rintro ⟨a, ha, hm⟩
      exact ⟨a, ha, ((Bool.and_eq_true _ _).mp hm).2⟩
    · rintro ⟨a, ha, hm⟩
      exact ⟨a, ha, by rw [nonempty_of_memA hm, hm]; rfl⟩

/-- Membership in `portion`'s `Interval(*intervals)`. -/
theorem memI_ofIntervals {x : ℚ} (is : List PIntv) :
    memI x (ofIntervals is) = is.any (memI x) := by
  unfold ofIntervals
  rw [memI_ofAtoms, List.any_flatMap]
  rw [List.any_filter]
  apply Bool.eq_iff_iff.mpr
  rw [List.any_eq_true, List.any_eq_true]
  constructor
  · rintro ⟨i, hi, hm⟩
    exact ⟨i, hi, ((Bool.and_eq_true _ _).mp hm).2⟩
  · rintro ⟨i, hi, hm⟩
    refine ⟨i, hi, ?_⟩
    have hne : isEmptyI i = false := by
      cases hq : isEmptyI i
      · rfl
      · rw [memI_of_isEmptyI hq] at hm
        exact absurd hm (by simp)
    rw [hne]
    simpa [memI] using hm

/-- Union membership: `portion`'s `|` is set union. -/
theorem memI_unionI {x : ℚ} (a b : PIntv) :
    memI x (unionI a b) = (memI x a || memI x b) := by
  unfold unionI
  rw [memI_ofIntervals]
  simp

/-- Intersection of two atoms is exact set intersection. -/
theorem memA_interAtom {x : ℚ} (a b : Atomic) :
    memA x (interAtom a b) = (memA x a && memA x b) := by
  apply Bool.eq_iff_iff.mpr
  rw [Bool.and_eq_true, memA_iff, memA_iff, memA_iff]
  unfold interAtom
  have hlb : lbOK (if a.lower = b.lower then a.left && b.left
        else if a.lower < b.lower then b.left else a.left)
      (max a.lower b.lower) x ↔ lbOK a.left a.lower x ∧ lbOK b.left b.lower x := by
    rcases lt_trichotomy a.lower b.lower with h | h | h
    · rw [if_neg (ne_of_lt h), if_pos h, max_eq_right (le_of_lt h)]
      exact ⟨fun hb => ⟨lbOK_of_lt h hb, hb⟩, fun hab => hab.2⟩
    · rw [if_pos h, max_eq_left (le_of_eq h.symm)]
      unfold lbOK
      rw [← h]
      cases a.left <;> cases b.left <;> simp <;> tauto
    · rw [if_neg (ne_of_gt h), if_neg (asymm h), max_eq_left (le_of_lt h)]
      exact ⟨fun ha => ⟨ha, lbOK_of_lt h ha⟩, fun hab => hab.1⟩
  have hub : ubOK (if a.upper = b.upper then a.right && b.right
        else if a.upper < b.upper then a.right else b.right)
      (min a.upper b.upper) x ↔ ubOK a.right a.upper x ∧ ubOK b.right b.upper x := by
    rcases lt_trichotomy a.upper b.upper with h | h | h
    · rw [if_neg (ne_of_lt h), if_pos h, min_eq_left (le_of_lt h)]
      exact ⟨fun ha => ⟨ha, ubOK_of_lt h ha⟩, fun hab => hab.1⟩
    · rw [if_pos h, min_eq_left (le_of_eq h)]
      unfold ubOK
      rw [← h]
      cases a.right <;> cases b.right <;> simp <;> tauto
    · rw [if_neg (ne_of_gt h), if_neg (asymm h), min_eq_right (le_of_lt h)]
      exact ⟨fun hb => ⟨ubOK_of_lt h hb, hb⟩, fun hab => hab.2⟩
  constructor
  · rintro ⟨h₁, h₂⟩
    obtain ⟨ha₁, hb₁⟩ := hlb.mp h₁
    obtain ⟨ha₂, hb₂⟩ := hub.mp h₂
    exact ⟨⟨ha₁, ha₂⟩, ⟨hb₁, hb₂⟩⟩
  · rintro ⟨⟨ha₁, ha₂⟩, ⟨hb₁, hb₂⟩⟩
    exact ⟨hlb.mpr ⟨ha₁, hb₁⟩, hub.mpr ⟨ha₂, hb₂⟩⟩

/-- Intersection membership: the modelled `portion` `&` is set
intersection. -/
theorem memI_interI {x : ℚ} (a b : PIntv) :
    memI x (interI a b) = (memI x a && memI x b) := by
  unfold interI
  rw [memI_ofAtoms]
  apply Bool.eq_iff_iff.mpr
  rw [Bool.and_eq_true, List.any_flatMap]
  unfold memI
  rw [List.any_eq_true, List.any_eq_true, List.any_eq_true]
  constructor
  · rintro ⟨i, hi, hm⟩
    rw [List.any_map, List.any_eq_true] at hm
    obtain ⟨j, hj, hmj⟩ := hm
    rw [Function.comp_apply, memA_interAtom, Bool.and_eq_true] at hmj
    exact ⟨⟨i, hi, hmj.1⟩, ⟨j, hj, hmj.2⟩⟩
  · rintro ⟨⟨i, hi, hmi⟩, ⟨j, hj, hmj⟩⟩
    refine ⟨i, hi, ?_⟩
    rw [List.any_map, List.any_eq_true]
    exact ⟨j, hj, by rw [Function.comp_apply, memA_interAtom, hmi, hmj]; rfl⟩

/-- Every instant is in the whole line. -/
theorem memI_wholeI {x : ℚ} : memI x wholeI = true := by
  unfold memI wholeI memA
  simp only [List.any_cons, List.any_nil]
  have h₁ : BVal.ninf < BVal.fin x := by
    rw [lt_iff_le_not_le]
    simp
  have h₂ : BVal.fin x < BVal.pinf := by
    rw [lt_iff_le_not_le]
    simp
  simp [h₁, h₂]

theorem lbOK_ninf {x : ℚ} {l : Bool} : lbOK l BVal.ninf x :=
  Or.inl (by rw [lt_iff_le_not_le]; simp)

theorem ubOK_pinf {x : ℚ} {r : Bool} : ubOK r BVal.pinf x :=
  Or.inl (by rw [lt_iff_le_not_le]; simp)

/-- The two outside pieces of one atom capture exactly the instants outside
that atom. -/
theorem memA_complAtomPieces {x : ℚ} (j : Atomic) :
    (complAtomPieces j).any (memA x) = true ↔ memA x j = false := by
  unfold complAtomPieces
  simp only [List.any_cons, List.any_nil, Bool.or_false, Bool.or_eq_true]
  rw [← Bool.not_eq_true, memA_iff, memA_iff, memA_iff]
  have h₁ : ubOK (!j.left) j.lower x ↔ ¬ lbOK j.left j.lower x := by
    rw [not_lbOK_iff]
    unfold ubOK
    cases j.left <;> simp
  have h₂ : lbOK (!j.right) j.upper x ↔ ¬ ubOK j.right j.upper x := by
    rw [not_ubOK_iff]
    unfold lbOK
    cases j.right <;> simp
  show (lbOK false BVal.ninf x ∧ ubOK (!j.left) j.lower x) ∨
      (lbOK (!j.right) j.upper x ∧ ubOK false BVal.pinf x) ↔ _
  rw [h₁, h₂]
  have e₁ : lbOK false BVal.ninf x := lbOK_ninf
  have e₂ : ubOK false BVal.pinf x := ubOK_pinf
  constructor
  · rintro (⟨_, h⟩ | ⟨h, _⟩) <;> tauto
  · intro h
    by_cases hl : lbOK j.left j.lower x
    · exact Or.inr ⟨fun hu => h ⟨hl, hu⟩, e₂⟩
    · exact Or.inl ⟨e₁, hl⟩

/-- Complement membership: the modelled `portion` `~` is set complement. -/
theorem memI_complI {x : ℚ} (b : PIntv) :
    memI x (complI b) = !memI x b := by
  unfold complI
  suffices h : ∀ (atoms : List Atomic) (acc : PIntv),
      memI x (atoms.foldl (fun acc j => interI acc (ofAtoms (complAtomPieces j))) acc)
        = (memI x acc && !atoms.any (memA x)) by
    rw [h, memI_wholeI]
    simp [memI]
  intro atoms
  induction atoms with
  | nil =>
    intro acc
    simp
  | cons j rest ih =>
    intro acc
    simp only [List.foldl_cons, List.any_cons]
    rw [ih, memI_interI]
    have hj : memI x (ofAtoms (complAtomPieces j)) = !memA x j := by
      rw [memI_ofAtoms]
      apply Bool.eq_iff_iff.mpr
      rw [memA_complAtomPieces]
      cases memA x j <;> simp
    rw [hj]
    cases memA x j <;> cases memI x acc <;> simp

/-- Difference membership: `portion`'s `-` is set difference. -/
theorem memI_diffI {x : ℚ} (a b : PIntv) :
    memI x (diffI a b) = (memI x a && !memI x b) := by
  unfold diffI
  rw [memI_interI, memI_complI]

/-- Disjointness of the reconciled labels produced by
`interval_merge_logic`, for arbitrary inputs. -/
theorem interval_merge_logic_disjoint (lt oo : SPart) (x : ℚ) :
    (memI x (interval_merge_logic lt oo).p1 && memI x (interval_merge_logic lt oo).p2) = false ∧
    (memI x (interval_merge_logic lt oo).p1 && memI x (interval_merge_logic lt oo).p3) = false ∧
    (memI x (interval_merge_logic lt oo).p2 && memI x (interval_merge_logic lt oo).p3) = false := by
  unfold interval_merge_logic
  simp only [memI_diffI, memI_unionI]
  cases memI x lt.p3 <;> cases memI x oo.p3 <;> cases memI x lt.p2 <;>
    cases memI x oo.p2 <;> cases memI x oo.p1 <;> simp

/-- **C1**: For every pair of status partitions given to the Priority
Reconciler (`main_interval_logic` / `interval_merge_logic`), in the
reconciled output the interval sets assigned to any two distinct labels
(`P1`, `P2`, `P3`) are pairwise disjoint: no instant belongs to two
different statuses.  (Both entry points, for either value of the
`P0_has_priority` flag.) -/
theorem c1_reconciled_partition_disjoint (lt oo : SPart) (flag : Bool) (x : ℚ) :
    ((memI x (interval_merge_logic lt oo).p1 && memI x (interval_merge_logic lt oo).p2) = false ∧
     (memI x (interval_merge_logic lt oo).p1 && memI x (interval_merge_logic lt oo).p3) = false ∧
     (memI x (interval_merge_logic lt oo).p2 && memI x (interval_merge_logic lt oo).p3) = false) ∧
    ((memI x (main_interval_partition lt oo flag).p1 &&
        memI x (main_interval_partition lt oo flag).p2) = false ∧
     (memI x (main_interval_partition lt oo flag).p1 &&
        memI x (main_interval_partition lt oo flag).p3) = false ∧
     (memI x (main_interval_partition lt oo flag).p2 &&
        memI x (main_interval_partition lt oo flag).p3) = false) := by
  refine ⟨interval_merge_logic_disjoint lt oo x, ?_⟩
  unfold main_interval_partition
  exact interval_merge_logic_disjoint _ _ x

/-- **C2 counterexample**: with source A carrying `P1 = [0, 1]` and all
other label sets empty, the claimed formula

`P1' = (A.P1 ∪ B.P1) − (P2' ∪ P3')`

yields a `P1'` containing the instant `0`, but `interval_merge_logic` (and
the `main_interval_logic` pipeline) yields an empty `P1'`: the code never
reads source A's `P1`. -/
theorem c2_counterexample :
    memI 0 (spec_reconcile_formula ltC2 ooC2).p1 = true ∧
    memI 0 (interval_merge_logic ltC2 ooC2).p1 = false ∧
    memI 0 (main_interval_partition ltC2 ooC2 false).p1 = false := by
  refine ⟨?_, ?_, ?_⟩ <;> decide

/-- **C2 amended**: the reconciler unions the two sources' same-label sets
for `P3` and `P2` and subtracts in descending priority order as claimed,
but `P1'` is computed from source `oo`'s `P1` alone:
`P3' = lt.P3 ∪ oo.P3`; `P2' = (lt.P2 ∪ oo.P2) − P3'`;
`P1' = oo.P1 − (P2' ∪ P3')`.  The per-source pre-subtractions performed by
`main_interval_logic` before calling `interval_merge_logic` do not change
the result. -/
theorem c2_amended_reconcile_formula (lt oo : SPart) (x : ℚ) :
    memI x (main_interval_partition lt oo false).p3
      = (memI x lt.p3 || memI x oo.p3) ∧
    memI x (main_interval_partition lt oo false).p2
      = ((memI x lt.p2 || memI x oo.p2) && !(memI x lt.p3 || memI x oo.p3)) ∧
    memI x (main_interval_partition lt oo false).p1
      = (memI x oo.p1 &&
          !(((memI x lt.p2 || memI x oo.p2) && !(memI x lt.p3 || memI x oo.p3)) ||
            (memI x lt.p3 || memI x oo.p3))) ∧
    memI x (interval_merge_logic lt oo).p3 = (memI x lt.p3 || memI x oo.p3) ∧
    memI x (interval_merge_logic lt oo).p2
      = ((memI x lt.p2 || memI x oo.p2) && !(memI x lt.p3 || memI x oo.p3)) ∧
    memI x (interval_merge_logic lt oo).p1
      = (memI x oo.p1 &&
          !(((memI x lt.p2 || memI x oo.p2) && !(memI x lt.p3 || memI x oo.p3)) ||
            (memI x lt.p3 || memI x oo.p3))) := by
  unfold main_interval_partition interval_merge_logic
  simp only [if_neg Bool.false_ne_true, memI_diffI, memI_unionI]
  cases memI x lt.p3 <;> cases memI x oo.p3 <;> cases memI x lt.p2 <;>
    cases memI x oo.p2 <;> cases memI x oo.p1 <;> simp

/-- **C9**: with `P0_has_priority` enabled, `main_interval_logic` first
subtracts `oo`'s `P0` (and only `oo`'s `P0`) from every non-`P0` label of
both sources — including `oo`'s own other labels — and then runs the
standard cascade: (1) the mode equals the standard mode on the
`P0`-adjusted inputs, (2) the result never depends on `lt`'s `P0`, and
(3) `oo.P0` is indeed carved out of every reconciled label. -/
theorem c9_p0_priority_mode (lt oo : SPart) (v : PIntv) (x : ℚ) :
    main_interval_partition lt oo true
      = main_interval_partition
          { lt with p1 := diffI lt.p1 oo.p0, p2 := diffI lt.p2 oo.p0, p3 := diffI lt.p3 oo.p0 }
          { oo with p1 := diffI oo.p1 oo.p0, p2 := diffI oo.p2 oo.p0, p3 := diffI oo.p3 oo.p0 }
          false ∧
    main_interval_partition { lt with p0 := v } oo true = main_interval_partition lt oo true ∧
    memI x (main_interval_partition lt oo true).p3
      = ((memI x lt.p3 || memI x oo.p3) && !memI x oo.p0) ∧
    memI x (main_interval_partition lt oo true).p2
      = ((memI x lt.p2 || memI x oo.p2) && !memI x oo.p0 &&
          !((memI x lt.p3 || memI x oo.p3) && !memI x oo.p0)) ∧
    memI x (main_interval_partition lt oo true).p1
      = (memI x oo.p1 && !memI x oo.p0 &&
          !(((memI x lt.p2 || memI x oo.p2) && !memI x oo.p0 &&
              !((memI x lt.p3 || memI x oo.p3) && !memI x oo.p0)) ||
            ((memI x lt.p3 || memI x oo.p3) && !memI x oo.p0))) := by
  refine ⟨rfl, rfl, ?_, ?_, ?_⟩ <;>
  · unfold main_interval_partition interval_merge_logic
    simp only [if_pos, memI_diffI, memI_unionI]
    cases memI x lt.p3 <;> cases memI x oo.p3 <;> cases memI x lt.p2 <;>
      cases memI x oo.p2 <;> cases memI x oo.p1 <;> cases memI x oo.p0 <;> simp

/-- On a `begin`-sorted cursor, the next-interval scan returns exactly the
first containing row (`List.find?`): in particular it is `none` both when a
row with `begin > date` is consumed and when the cursor is exhausted. -/
theorem next_interval_eq_find (date : ℚ) (l : List IRow)
    (hs : l.Pairwise rowKeyRel) :
    next_interval_including_date date l
      = l.find? (fun r => date_in_interval date r.begin_ r.end_) := by
  induction l with
  | nil => rfl
  | cons r rest ih =>
    rw [List.pairwise_cons] at hs
    obtain ⟨hr, hrest⟩ := hs
    unfold next_interval_including_date
    by_cases hin : date_in_interval date r.begin_ r.end_ = true
    · rw [if_pos hin]
      exact (@List.find?_cons_of_pos IRow (fun s => date_in_interval date s.begin_ s.end_)
        r rest hin).symm
    · rw [if_neg hin,
        @List.find?_cons_of_neg IRow (fun s => date_in_interval date s.begin_ s.end_) r rest hin]
      by_cases hlt : date < r.begin_
      · rw [if_pos hlt]
        symm
        rw [List.find?_eq_none]
        intro s hsmem
        have hbs : r.begin_ ≤ s.begin_ := hr s hsmem
        unfold date_in_interval
        simp only [Bool.and_eq_true, decide_eq_true_eq, not_and]
        intro hle
        exact absurd (le_trans hbs hle) (not_le.mpr hlt)
      · rw [if_neg hlt]
        exact ih hrest

/-- The two cursor scans agree on returned rows, and
`next_trip_including_date` lets `StopIteration` escape exactly when every
row of the cursor is consumed without a match and without the early exit. -/
theorem next_trip_spec (date : ℚ) (l : List IRow) :
    (∀ r : IRow, next_trip_including_date date l = .found r
        ↔ next_interval_including_date date l = some r) ∧
    (next_trip_including_date date l = .raised
        ↔ l.all (fun r => !date_in_interval date r.begin_ r.end_
            && decide (r.begin_ ≤ date)) = true) := by
  induction l with
  | nil =>
    refine ⟨fun r => ?_, ?_⟩
    · unfold next_trip_including_date next_interval_including_date
      simp
    · unfold next_trip_including_date
      simp
  | cons row rest ih =>
    unfold next_trip_including_date next_interval_including_date
    rw [List.all_cons]
    by_cases hin : date_in_interval date row.begin_ row.end_ = true
    · rw [if_pos hin, if_pos hin, hin]
      simp
    · have hinb : date_in_interval date row.begin_ row.end_ = false := by
        rw [← Bool.not_eq_true]
        exact hin
      by_cases hlt : date < row.begin_
      · have hble : decide (row.begin_ ≤ date) = false :=
          decide_eq_false (not_le.mpr hlt)
        rw [if_neg hin, if_neg hin, if_pos hlt, if_pos hlt, hinb, hble]
        simp
      · have hble : decide (row.begin_ ≤ date) = true :=
          decide_eq_true (not_lt.mp hlt)
        rw [if_neg hin, if_neg hin, if_neg hlt, if_neg hlt, hinb, hble]
        simp only [Bool.not_false, Bool.true_and]
        exact ih

/-- **C7 counterexample**: on the sorted test frame, the exhausted-cursor
query (instant `2022-11-29`, minute `41760`, past every interval) makes
`next_trip_including_date` of `src/tripmatch.py` — cited by the claim —
raise `StopIteration` instead of returning `None`; only the
`src/src/tripmatch.py` variant `next_interval_including_date`, which
catches `StopIteration`, returns `None` there. -/
theorem c7_counterexample :
    next_trip_including_date 41760 (sortByBegin tmRows) = .raised ∧
    next_interval_including_date 41760 (sortByBegin tmRows) = none := by
  decide

/-- **C7 amended**: both cited cursor queries return the first interval in
the sorted stream containing the instant, and `None` as soon as a consumed
interval's `begin` exceeds the instant without a match; at cursor
exhaustion `next_interval_including_date` (src/src) catches the
`StopIteration` and returns `None`, while `next_trip_including_date`
(src/tripmatch.py) lets it escape — its trailing `return None` is
unreachable — raising exactly when every row is consumed without a match
or early exit.  On the test frame `a:[05,07], b:[09,11], c:[10,13],
d:[11,14]`, instant `2022-11-09T00:42` returns `b` and `2022-11-12`
returns `c` in both variants; instant `2022-11-29` returns `None` in the
src/src variant and raises in the src/tripmatch.py one. -/
theorem c7_amended_next_interval_cursor (date : ℚ) (l : List IRow)
    (hs : l.Pairwise rowKeyRel) :
    next_interval_including_date date l
      = l.find? (fun r => date_in_interval date r.begin_ r.end_) ∧
    (∀ r : IRow, next_trip_including_date date l = .found r
        ↔ next_interval_including_date date l = some r) ∧
    (next_trip_including_date date l = .raised
        ↔ l.all (fun r => !date_in_interval date r.begin_ r.end_
            && decide (r.begin_ ≤ date)) = true) ∧
    (next_interval_including_date 13002 tmRows).map IRow.name = some "b" ∧
    (next_interval_including_date 17280 tmRows).map IRow.name = some "c" ∧
    next_interval_including_date 41760 tmRows = none ∧
    (next_trip_including_date 13002 tmRows
        = .found ⟨"b", 12960, 15840, 0, 0, 0, 0⟩) ∧
    (next_trip_including_date 17280 tmRows
        = .found ⟨"c", 14400, 18720, 0, 0, 0, 0⟩) ∧
    next_trip_including_date 41760 tmRows = .raised := by
  refine ⟨next_interval_eq_find date l hs, (next_trip_spec date l).1,
    (next_trip_spec date l).2, ?_, ?_, ?_, ?_, ?_, ?_⟩ <;> decide

/-- Closed witness for `C7` at the test frame and instant
`2022-11-09T00:42` (minute `9 * 1440 + 42 = 13002`). -/
theorem c7_amended_next_interval_cursor_witness :
    tmRows.Pairwise rowKeyRel ∧
    (next_interval_including_date 13002 tmRows
        = tmRows.find? (fun r => date_in_interval 13002 r.begin_ r.end_) ∧
      (∀ r : IRow, next_trip_including_date 13002 tmRows = .found r
          ↔ next_interval_including_date 13002 tmRows = some r) ∧
      (next_trip_including_date 13002 tmRows = .raised
          ↔ tmRows.all (fun r => !date_in_interval 13002 r.begin_ r.end_
              && decide (r.begin_ ≤ 13002)) = true) ∧
      (next_interval_including_date 13002 tmRows).map IRow.name = some "b" ∧
      (next_interval_including_date 17280 tmRows).map IRow.name = some "c" ∧
      next_interval_including_date 41760 tmRows = none ∧
      (next_trip_including_date 13002 tmRows
          = .found ⟨"b", 12960, 15840, 0, 0, 0, 0⟩) ∧
      (next_trip_including_date 17280 tmRows
          = .found ⟨"c", 14400, 18720, 0, 0, 0, 0⟩) ∧
      next_trip_including_date 41760 tmRows = .raised) :=
  ⟨by decide, c7_amended_next_interval_cursor 13002 tmRows (by decide)⟩

/-- On a `begin`-sorted frame, the early-exit scan of
`intervals_including_date_old` computes exactly the vectorized filter of
`intervals_including_date`. -/
theorem scanIncluding_eq_filter (date : ℚ) (l : List IRow)
    (hs : l.Pairwise rowKeyRel) :
    scanIncluding date l
      = l.filter (fun r => decide (r.begin_ ≤ date) && decide (date ≤ r.end_)) := by
  induction l with
  | nil => rfl
  | cons r rest ih =>
    rw [List.pairwise_cons] at hs
    obtain ⟨hr, hrest⟩ := hs
    unfold scanIncluding
    by_cases hin : date_in_interval date r.begin_ r.end_ = true
    · have hin' : (decide (r.begin_ ≤ date) && decide (date ≤ r.end_)) = true := hin
      rw [if_pos hin, ih hrest, List.filter_cons, if_pos hin']
    · have hin' : ¬ (decide (r.begin_ ≤ date) && decide (date ≤ r.end_)) = true := hin
      rw [if_neg hin]
      by_cases hlt : date < r.begin_
      · rw [if_pos hlt]
        symm
        rw [List.filter_eq_nil_iff]
        intro s hsmem
        simp only [Bool.and_eq_true, decide_eq_true_eq, not_and]
        intro hle
        rcases List.mem_cons.mp hsmem with hseq | hsmem'
        · subst hseq
          exact absurd hle (not_le.mpr hlt)
        · exact absurd (le_trans (hr s hsmem') hle) (not_le.mpr hlt)
      · rw [if_neg hlt, ih hrest, List.filter_cons, if_neg hin']

/-- **C10**: for every interval dataframe (in any row order) and every
query instant, `intervals_including_date_old` (linear generator scan with
early exit) and `intervals_including_date` (vectorized filter) return
exactly the same sequence of containing intervals, and that sequence is in
ascending order of `begin`. -/
theorem c10_point_query_equivalence (df : List IRow) (date : ℚ) :
    intervals_including_date_old date df = intervals_including_date date df ∧
    (intervals_including_date date df).Pairwise rowKeyRel := by
  constructor
  · unfold intervals_including_date_old intervals_including_date
    exact scanIncluding_eq_filter date (sortByBegin df)
      (List.sorted_insertionSort rowKeyRel df)
  · exact (List.sorted_insertionSort rowKeyRel df).filter _

/-- **C8 counterexample**: on the test data (`A`,`B` against `a`,`b`,`c`),
interval `c` is matched by point event `B.end`, yet the audit report of
`find_matching_date_locations` contains only the groups for `a` and `b`:
the final accumulated group is never emitted, so the report does not cover
every destination interval matched by at least one point event. -/
theorem c8_counterexample :
    (match_dates_to_intervals datesC8 tripsC8).any
        (fun p => decide (p.2.name = "c")) = true ∧
    (find_matching_date_locations datesC8 tripsC8).map (fun g => g.trip.name)
        = ["a", "b"] ∧
    (find_matching_date_locations datesC8 tripsC8).any
        (fun g => decide (g.trip.name = "c")) = false := by
  refine ⟨?_, ?_, ?_⟩ <;> decide

theorem chunkAux_ne_nil (pairs : List (Datloc × IRow)) (g : MatchGroup) :
    chunkAux pairs g ≠ [] := by
  induction pairs generalizing g with
  | nil => simp [chunkAux]
  | cons p rest ih =>
    obtain ⟨loc, trip⟩ := p
    unfold chunkAux
    by_cases h : interval_equals g.trip trip = true
    · rw [if_pos h]
      exact ih _
    · rw [if_neg h]
      simp

theorem fmdlLoop_eq_chunks (pairs : List (Datloc × IRow)) (g : MatchGroup) :
    fmdlLoop pairs (some g)
      = ((chunkAux pairs g).dropLast).filter (fun h => decide (1 < h.locations.length)) := by
  induction pairs generalizing g with
  | nil => simp [fmdlLoop, chunkAux]
  | cons p rest ih =>
    obtain ⟨loc, trip⟩ := p
    unfold fmdlLoop chunkAux
    by_cases h : interval_equals g.trip trip = true
    · rw [if_pos h, if_pos h, ih]
    · rw [if_neg h, if_neg h, ih]
      rw [List.dropLast_cons_of_ne_nil (chunkAux_ne_nil rest _), List.filter_cons]
      by_cases hl : 1 < g.locations.length
      · rw [if_pos hl, if_pos (by simpa using hl)]
        rfl
      · rw [if_neg hl, if_neg (by simpa using hl)]
        rfl

/-- **C8 amended**: the audit pass emits exactly the non-final groups of
consecutive matches that accumulated more than one point event: the final
group is never emitted, and groups matched by a single point event are
skipped rather than reported. -/
theorem c8_amended_emission (on_off lifetime_trips : List IRow) :
    find_matching_date_locations on_off lifetime_trips
      = ((chunkGroups (match_dates_to_intervals on_off lifetime_trips)).dropLast).filter
          (fun h => decide (1 < h.locations.length)) := by
  unfold find_matching_date_locations chunkGroups
  cases hm : match_dates_to_intervals on_off lifetime_trips with
  | nil => rfl
  | cons p rest =>
    obtain ⟨loc, trip⟩ := p
    exact fmdlLoop_eq_chunks rest ⟨trip, [loc]⟩

/-- **C3 counterexample**: the touching intervals `[0,5]` (first
collection) and `[5,9]` (second collection) share the boundary instant `5`
— both point-containment checks accept it — yet the NCLS-backed bulk join
of `merge_over_time_intervals2` reports no pair for them: its overlap test
is strict, so exact boundary equality does not count as an overlap there. -/
theorem c3_counterexample :
    date_in_interval 5 0 5 = true ∧ date_in_interval 5 5 9 = true ∧
    merge_over_time_intervals2 [⟨0, 5⟩] [⟨5, 9⟩] = [] := by
  refine ⟨?_, ?_, ?_⟩ <;> decide

/-- **C3 amended**: exact boundary equality counts as an overlap in the
point-containment query (`date_in_interval` is closed on both ends), but
the bulk interval-vs-interval join of `merge_over_time_intervals2` pairs
two rows iff their intervals overlap in the strict (half-open) sense
`i.start < j.end ∧ j.start < i.end`, so boundary touches are not
reported. -/
theorem c3_amended_overlap_semantics (a b c : ℚ) (df1 df2 : List NRow)
    (p : NRow × NRow) (hab : a ≤ b) (hbc : b ≤ c) :
    date_in_interval b a b = true ∧ date_in_interval b b c = true ∧
    (p ∈ merge_over_time_intervals2 df1 df2 ↔
      p.1 ∈ df1 ∧ p.2 ∈ df2 ∧ p.1.start < p.2.end_ ∧ p.2.start < p.1.end_) := by
  refine ⟨?_, ?_, ?_⟩
  · unfold date_in_interval
    simp [hab]
  · unfold date_in_interval
    simp [hbc]
  · unfold merge_over_time_intervals2
    constructor
    · intro hp
      rw [List.mem_flatMap] at hp
      obtain ⟨j, hj, hpj⟩ := hp
      rw [List.mem_map] at hpj
      obtain ⟨i, hi, hpi⟩ := hpj
      rw [List.mem_filter] at hi
      obtain ⟨hi1, hcond⟩ := hi
      subst hpi
      simp only [Bool.and_eq_true, decide_eq_true_eq] at hcond
      exact ⟨hi1, hj, hcond.1, hcond.2⟩
    · rintro ⟨h1, h2, h3, h4⟩
      rw [List.mem_flatMap]
      refine ⟨p.2, h2, ?_⟩
      rw [List.mem_map]
      refine ⟨p.1, List.mem_filter.mpr ⟨h1, by simp [h3, h4]⟩, rfl⟩

/-- Closed witness for the amended `C3` at `a = 0`, `b = 5`, `c = 9`, with
the singleton frames `[0,5]` and `[5,9]`. -/
theorem c3_amended_overlap_semantics_witness :
    (0 : ℚ) ≤ 5 ∧ (5 : ℚ) ≤ 9 ∧
    (date_in_interval 5 0 5 = true ∧ date_in_interval 5 5 9 = true ∧
      (((⟨0, 5⟩, ⟨5, 9⟩) : NRow × NRow) ∈ merge_over_time_intervals2 [⟨0, 5⟩] [⟨5, 9⟩] ↔
        (⟨0, 5⟩ : NRow) ∈ [(⟨0, 5⟩ : NRow)] ∧ (⟨5, 9⟩ : NRow) ∈ [(⟨5, 9⟩ : NRow)] ∧
          ((⟨0, 5⟩, ⟨5, 9⟩) : NRow × NRow).1.start < ((⟨0, 5⟩, ⟨5, 9⟩) : NRow × NRow).2.end_ ∧
          ((⟨0, 5⟩, ⟨5, 9⟩) : NRow × NRow).2.start < ((⟨0, 5⟩, ⟨5, 9⟩) : NRow × NRow).1.end_)) :=
  ⟨by norm_num, by norm_num,
    c3_amended_overlap_semantics 0 5 9 [⟨0, 5⟩] [⟨5, 9⟩] (⟨0, 5⟩, ⟨5, 9⟩)
      (by norm_num) (by norm_num)⟩

/-- **C5**: `time_tuples_to_periods` checks the arity once, before touching
any row: with `K` timestamp columns (`K ≥ 2`), every list of metadata
functions whose length differs from `K - 1` — too many or too few — raises
the configuration error on every table, including the empty one, so the
error is immediate and not per-row; with exactly `K - 1` functions it
produces, for each row, exactly `K - 1` periods, period `i` having
`begin = t_i`, `end = t_{i+1}` and the attributes from applying metadata
function `i` to the row. -/
theorem c5_period_constructor (table : List TRow) (columns : List String)
    (extra_info : List (TRow → TAttrs)) (r : TRow) (i : ℕ)
    (hK : 2 ≤ columns.length)
    (harity : extra_info.length = columns.length - 1)
    (hi : i < columns.length - 1) :
    time_tuples_to_periods table columns extra_info
        = .ok (table.flatMap (periodsOfRow columns extra_info)) ∧
    (periodsOfRow columns extra_info r).length = columns.length - 1 ∧
    (∀ (table₂ : List TRow) (extra₂ : List (TRow → TAttrs)),
      extra₂.length ≠ columns.length - 1 →
      ∃ e, time_tuples_to_periods table₂ columns extra₂ = .error e) ∧
    ∃ tb te d, columns[i]? = some tb ∧ columns[i + 1]? = some te ∧
      extra_info[i]? = some d ∧
      (periodsOfRow columns extra_info r)[i]? = some ⟨r tb, r te, d r⟩ := by
  have harity' : columns.length = extra_info.length + 1 := by omega
  have h1 : i < columns.length := by omega
  have h1' : i + 1 < columns.length := by omega
  have h2 : i < columns.tail.length := by
    rw [List.length_tail]
    omega
  have h3 : i < extra_info.length := by omega
  have hz1 : i < (columns.zip columns.tail).length := by
    rw [List.length_zip, List.length_tail]
    simp only [lt_min_iff]
    exact ⟨h1, by omega⟩
  have hz2 : i < ((columns.zip columns.tail).zip extra_info).length := by
    rw [List.length_zip]
    simp only [lt_min_iff]
    exact ⟨hz1, h3⟩
  refine ⟨?_, ?_, ?_, ?_⟩
  · unfold time_tuples_to_periods
    rw [if_pos harity']
  · unfold periodsOfRow
    rw [List.length_map, List.length_zip, List.length_zip, List.length_tail, harity]
    rw [min_eq_right (by omega : columns.length - 1 ≤ columns.length),
      min_eq_right (le_refl _)]
  · intro table₂ extra₂ hne
    exact ⟨_, by
      unfold time_tuples_to_periods
      rw [if_neg (by omega)]⟩
  · refine ⟨columns[i], columns[i + 1], extra_info[i],
      List.getElem?_eq_getElem h1, List.getElem?_eq_getElem h1',
      List.getElem?_eq_getElem h3, ?_⟩
    unfold periodsOfRow
    rw [List.getElem?_map, List.getElem?_eq_getElem hz2]
    have hzz : ((columns.zip columns.tail).zip extra_info)[i]
        = ((columns[i], columns[i + 1]), extra_info[i]) := by
      rw [List.getElem_zip, List.getElem_zip, List.getElem_tail]
    rw [hzz]
    rfl

/-- Closed witness for `C5` on the docstring example: three timestamp
columns, two metadata functions, one row, period index `0`. -/
theorem c5_period_constructor_witness :
    2 ≤ columnsC5.length ∧ extraC5.length = columnsC5.length - 1 ∧ 0 < columnsC5.length - 1 ∧
    (time_tuples_to_periods [rowC5] columnsC5 extraC5
        = .ok ([rowC5].flatMap (periodsOfRow columnsC5 extraC5)) ∧
      (periodsOfRow columnsC5 extraC5 rowC5).length = columnsC5.length - 1 ∧
      (∀ (table₂ : List TRow) (extra₂ : List (TRow → TAttrs)),
        extra₂.length ≠ columnsC5.length - 1 →
        ∃ e, time_tuples_to_periods table₂ columnsC5 extra₂ = .error e) ∧
      ∃ tb te d, columnsC5[0]? = some tb ∧ columnsC5[0 + 1]? = some te ∧
        extraC5[0]? = some d ∧
        (periodsOfRow columnsC5 extraC5 rowC5)[0]? = some ⟨rowC5 tb, rowC5 te, d rowC5⟩) :=
  ⟨by decide, by decide, by decide,
    c5_period_constructor [rowC5] columnsC5 extraC5 rowC5 0
      (by decide) (by decide) (by decide)⟩

theorem nonempty_closed_iff {a : Atomic} (hl : a.left = true) (hr : a.right = true) :
    a.nonempty = true ↔ a.lower ≤ a.upper := by
  unfold Atomic.nonempty
  rw [hl, hr]
  simp only [Bool.or_eq_true, Bool.and_eq_true, decide_eq_true_eq, and_true]
  rw [le_iff_lt_or_eq]

theorem combine_lower (a b : Atomic) : (combine a b).lower = min a.lower b.lower := by
  unfold combine
  dsimp only
  by_cases h : a.lower = b.lower
  · rw [if_pos h, h, min_self]
  · rw [if_neg h]

theorem combine_upper (a b : Atomic) : (combine a b).upper = max a.upper b.upper := by
  unfold combine
  dsimp only
  by_cases h : a.upper = b.upper
  · rw [if_pos h, h, max_self]
  · rw [if_neg h]

theorem combine_left_closed {a b : Atomic} (ha : a.left = true) (hb : b.left = true) :
    (combine a b).left = true := by
  unfold combine
  dsimp only
  by_cases h : a.lower = b.lower
  · simp [h, ha]
  · by_cases h2 : min a.lower b.lower = a.lower
    · simp [h, h2, ha]
    · simp [h, h2, hb]

theorem combine_right_closed {a b : Atomic} (ha : a.right = true) (hb : b.right = true) :
    (combine a b).right = true := by
  unfold combine
  dsimp only
  by_cases h : a.upper = b.upper
  · simp [h, ha]
  · by_cases h2 : max a.upper b.upper = a.upper
    · simp [h, h2, ha]
    · simp [h, h2, hb]

theorem min_fin {p q : ℚ} : min (BVal.fin p) (BVal.fin q) = BVal.fin (min p q) := by
  rcases le_total p q with h | h
  · rw [min_eq_left (BVal.fin_le_fin.mpr h), min_eq_left h]
  · rw [min_eq_right (BVal.fin_le_fin.mpr h), min_eq_right h]

theorem max_fin {p q : ℚ} : max (BVal.fin p) (BVal.fin q) = BVal.fin (max p q) := by
  rcases le_total p q with h | h
  · rw [max_eq_right (BVal.fin_le_fin.mpr h), max_eq_right h]
  · rw [max_eq_left (BVal.fin_le_fin.mpr h), max_eq_left h]

theorem goodAtom_spec {a : Atomic} (h : goodAtom a = true) :
    a.left = true ∧ a.right = true ∧ a.lower ≤ a.upper ∧
    (∃ q, a.lower = BVal.fin q) ∧ ∃ q, a.upper = BVal.fin q := by
  unfold goodAtom at h
  simp only [Bool.and_eq_true] at h
  obtain ⟨⟨⟨⟨hl, hr⟩, hne⟩, hfl⟩, hfu⟩ := h
  refine ⟨hl, hr, (nonempty_closed_iff hl hr).mp hne, ?_, ?_⟩
  · cases hv : a.lower <;> rw [hv] at hfl <;> simp at hfl ⊢
  · cases hv : a.upper <;> rw [hv] at hfu <;> simp at hfu ⊢

theorem goodAtom_intro {a : Atomic} (hl : a.left = true) (hr : a.right = true)
    (hle : a.lower ≤ a.upper) (hql : ∃ q, a.lower = BVal.fin q)
    (hqu : ∃ q, a.upper = BVal.fin q) : goodAtom a = true := by
  unfold goodAtom
  obtain ⟨ql, hql⟩ := hql
  obtain ⟨qu, hqu⟩ := hqu
  simp only [Bool.and_eq_true]
  exact ⟨⟨⟨⟨hl, hr⟩, (nonempty_closed_iff hl hr).mpr hle⟩, by rw [hql]⟩, by rw [hqu]⟩

theorem goodAtom_combine {a b : Atomic} (ha : goodAtom a = true) (hb : goodAtom b = true) :
    goodAtom (combine a b) = true := by
  obtain ⟨hal, har, hale, ⟨qal, hqal⟩, ⟨qau, hqau⟩⟩ := goodAtom_spec ha
  obtain ⟨hbl, hbr, hble, ⟨qbl, hqbl⟩, ⟨qbu, hqbu⟩⟩ := goodAtom_spec hb
  apply goodAtom_intro (combine_left_closed hal hbl) (combine_right_closed har hbr)
  · rw [combine_lower, combine_upper]
    exact le_trans (min_le_left _ _) (le_trans hale (le_max_left _ _))
  · rw [combine_lower, hqal, hqbl, min_fin]
    exact ⟨_, rfl⟩
  · rw [combine_upper, hqau, hqbu, max_fin]
    exact ⟨_, rfl⟩

/-- For closed nonempty atoms in lower-sorted position, non-mergeability
means a genuine gap. -/
theorem not_mergeable_gap {a b : Atomic} (ha : goodAtom a = true) (hb : goodAtom b = true)
    (hle : a.lower ≤ b.lower) (hm : mergeable a b = false) : a.upper < b.lower := by
  obtain ⟨hal, har, _, _, _⟩ := goodAtom_spec ha
  obtain ⟨hbl, _, _, _, _⟩ := goodAtom_spec hb
  have hc : a.lower < b.lower ∨ (a.lower = b.lower ∧ a.left = true) := by
    rcases lt_or_eq_of_le hle with h | h
    · exact Or.inl h
    · exact Or.inr ⟨h, hal⟩
  unfold mergeable at hm
  rw [if_pos hc] at hm
  by_cases heq : a.upper = b.lower
  · rw [if_pos heq, har] at hm
    simp at hm
  · rw [if_neg heq] at hm
    simp only [decide_eq_false_iff_not, not_lt] at hm
    exact lt_of_le_of_ne hm heq

theorem atomKeyLe_lower_le {a b : Atomic} (h : atomKeyLe a b = true) :
    a.lower ≤ b.lower := by
  unfold atomKeyLe at h
  simp only [Bool.or_eq_true, Bool.and_eq_true, decide_eq_true_eq] at h
  rcases h with h | ⟨h, _⟩
  · exact le_of_lt h
  · exact le_of_eq h

theorem mergeStep_ne_nil (l : List Atomic) (a : Atomic) : mergeStep a l ≠ [] := by
  induction l generalizing a with
  | nil => simp [mergeStep]
  | cons b rest ih =>
    unfold mergeStep
    by_cases hm : mergeable a b = true
    · rw [if_pos hm]
      exact ih _
    · rw [if_neg hm]
      simp

/-- For closed, nonempty, finite atoms with a gap between them,
`portion`'s mergeability test is negative. -/
theorem mergeable_false_of_gap {a b : Atomic} (ha : goodAtom a = true)
    (hgap : a.upper < b.lower) : mergeable a b = false := by
  obtain ⟨_, _, hle, _, _⟩ := goodAtom_spec ha
  have hlt : a.lower < b.lower := lt_of_le_of_lt hle hgap
  unfold mergeable
  rw [if_pos (Or.inl hlt), if_neg (ne_of_lt hgap)]
  simp only [decide_eq_false_iff_not, not_lt]
  exact le_of_lt hgap

/-- The structural invariant produced by the merge sweep on sorted good
atoms: all atoms good, pairwise separated by real gaps, and no atom's
lower bound below the one the sweep started from. -/
theorem mergeStep_norm (l : List Atomic) (a : Atomic)
    (hg : goodAtom a = true) (hgl : ∀ y ∈ l, goodAtom y = true)
    (hs : l.Pairwise (fun x y => x.lower ≤ y.lower))
    (ha : ∀ y ∈ l, a.lower ≤ y.lower) :
    (∀ y ∈ mergeStep a l, goodAtom y = true) ∧
    (mergeStep a l).Pairwise (fun x y => x.upper < y.lower) ∧
    (∀ y ∈ mergeStep a l, a.lower ≤ y.lower) := by
  induction l generalizing a with
  | nil =>
    refine ⟨?_, ?_, ?_⟩
    · intro y hy
      rw [mergeStep, List.mem_singleton] at hy
      rw [hy]
      exact hg
    · rw [mergeStep]
      exact List.pairwise_singleton _ _
    · intro y hy
      rw [mergeStep, List.mem_singleton] at hy
      rw [hy]
  | cons b rest ih =>
    have hgb : goodAtom b = true := hgl b (List.mem_cons_self b rest)
    have hgrest : ∀ y ∈ rest, goodAtom y = true :=
      fun y hy => hgl y (List.mem_cons_of_mem b hy)
    rw [List.pairwise_cons] at hs
    obtain ⟨hbrest, hsrest⟩ := hs
    have hab : a.lower ≤ b.lower := ha b (List.mem_cons_self b rest)
    unfold mergeStep
    by_cases hm : mergeable a b = true
    · rw [if_pos hm]
      have hcomb : (combine a b).lower = a.lower := by
        rw [combine_lower, min_eq_left hab]
      obtain ⟨ih1, ih2, ih3⟩ := ih (combine a b) (goodAtom_combine hg hgb) hgrest hsrest
        (fun y hy => by rw [hcomb]; exact le_trans hab (hbrest y hy))
      exact ⟨ih1, ih2, fun y hy => by rw [← hcomb]; exact ih3 y hy⟩
    · rw [if_neg hm]
      obtain ⟨ih1, ih2, ih3⟩ := ih b hgb hgrest hsrest hbrest
      have hgap : a.upper < b.lower :=
        not_mergeable_gap hg hgb hab (Bool.not_eq_true _ ▸ hm)
      refine ⟨?_, ?_, ?_⟩
      · intro y hy
        rcases List.mem_cons.mp hy with hy | hy
        · rw [hy]
          exact hg
        · exact ih1 y hy
      · rw [List.pairwise_cons]
        exact ⟨fun y hy => lt_of_lt_of_le hgap (ih3 y hy), ih2⟩
      · intro y hy
        rcases List.mem_cons.mp hy with hy | hy
        · rw [hy]
        · exact le_trans hab (ih3 y hy)

/-- On a list of separated good atoms the merge sweep is the identity. -/
theorem mergeStep_of_sep (l : List Atomic) (a : Atomic)
    (hg : goodAtom a = true) (hgl : ∀ y ∈ l, goodAtom y = true)
    (hsep : (a :: l).Pairwise (fun x y => x.upper < y.lower)) :
    mergeStep a l = a :: l := by
  induction l generalizing a with
  | nil => rw [mergeStep]
  | cons b rest ih =>
    rw [List.pairwise_cons] at hsep
    obtain ⟨hagap, hsep'⟩ := hsep
    have hgap : a.upper < b.lower := hagap b (List.mem_cons_self b rest)
    unfold mergeStep
    rw [if_neg (by rw [mergeable_false_of_gap hg hgap]; simp)]
    rw [ih b (hgl b (List.mem_cons_self b rest))
      (fun y hy => hgl y (List.mem_cons_of_mem b hy)) hsep']

theorem mergeLoop_of_sep (l : List Atomic)
    (hgl : ∀ y ∈ l, goodAtom y = true)
    (hsep : l.Pairwise (fun x y => x.upper < y.lower)) :
    mergeLoop l = l := by
  cases l with
  | nil => rfl
  | cons a rest =>
    rw [mergeLoop]
    exact mergeStep_of_sep rest a (hgl a (List.mem_cons_self a rest))
      (fun y hy => hgl y (List.mem_cons_of_mem a hy)) hsep

theorem ofAtoms_ne_nil (atoms : List Atomic) : ofAtoms atoms ≠ [] := by
  unfold ofAtoms
  by_cases he : (atoms.filter Atomic.nonempty).isEmpty
  · rw [if_pos he]
    simp [emptyI]
  · rw [if_neg he]
    cases hsl : sortAtoms (atoms.filter Atomic.nonempty) with
    | nil =>
      exfalso
      apply he
      rw [List.isEmpty_iff]
      have := (List.perm_insertionSort atomKeyRel (atoms.filter Atomic.nonempty)).length_eq
      rw [show List.insertionSort atomKeyRel (atoms.filter Atomic.nonempty)
          = sortAtoms (atoms.filter Atomic.nonempty) from rfl, hsl] at this
      exact List.length_eq_zero.mp this.symm
    | cons a rest =>
      rw [mergeLoop]
      exact mergeStep_ne_nil rest a

/-- `portion`'s constructor on closed, finite atoms produces either the
canonical empty interval or a normalized list of separated good atoms. -/
theorem ofAtoms_norm (atoms : List Atomic)
    (h : ∀ a ∈ atoms, a.left = true ∧ a.right = true ∧
      (∃ q, a.lower = BVal.fin q) ∧ (∃ q, a.upper = BVal.fin q)) :
    ofAtoms atoms = emptyI ∨
      ((∀ y ∈ ofAtoms atoms, goodAtom y = true) ∧
       (ofAtoms atoms).Pairwise (fun x y => x.upper < y.lower)) := by
  unfold ofAtoms
  by_cases he : (atoms.filter Atomic.nonempty).isEmpty
  · rw [if_pos he]
    exact Or.inl rfl
  · rw [if_neg he]
    right
    have hgood : ∀ a ∈ atoms.filter Atomic.nonempty, goodAtom a = true := by
      intro a hma
      rw [List.mem_filter] at hma
      obtain ⟨hmem, hne⟩ := hma
      obtain ⟨hl, hr, hql, hqu⟩ := h a hmem
      exact goodAtom_intro hl hr ((nonempty_closed_iff hl hr).mp hne) hql hqu
    have hsorted : (sortAtoms (atoms.filter Atomic.nonempty)).Pairwise atomKeyRel :=
      List.sorted_insertionSort atomKeyRel _
    have hgood2 : ∀ a ∈ sortAtoms (atoms.filter Atomic.nonempty), goodAtom a = true :=
      fun a hma => hgood a ((List.perm_insertionSort atomKeyRel _).mem_iff.mp hma)
    have hlow : (sortAtoms (atoms.filter Atomic.nonempty)).Pairwise
        (fun x y => x.lower ≤ y.lower) :=
      hsorted.imp (fun hk => atomKeyLe_lower_le hk)
    cases hsl : sortAtoms (atoms.filter Atomic.nonempty) with
    | nil => simp [mergeLoop]
    | cons a rest =>
      rw [hsl] at hgood2 hlow
      rw [List.pairwise_cons] at hlow
      obtain ⟨harest, hlow'⟩ := hlow
      rw [mergeLoop]
      obtain ⟨h1, h2, _⟩ := mergeStep_norm rest a (hgood2 a (List.mem_cons_self a rest))
        (fun y hy => hgood2 y (List.mem_cons_of_mem a hy)) hlow' harest
      exact ⟨h1, h2⟩

theorem finRow_spec {r : PRow} (h : finRow r = true) :
    ∃ qb qe, r.begin_ = BVal.fin qb ∧ r.end_ = BVal.fin qe := by
  unfold finRow at h
  rw [Bool.and_eq_true] at h
  obtain ⟨h1, h2⟩ := h
  cases hb : r.begin_ <;> rw [hb] at h1 <;> cases he : r.end_ <;> rw [he] at h2 <;>
    simp at h1 h2 ⊢

theorem closedI_fin {qb qe : ℚ} :
    closedI (BVal.fin qb) (BVal.fin qe)
      = if qb ≤ qe then [⟨true, BVal.fin qb, BVal.fin qe, true⟩] else emptyI := by
  unfold closedI fromAtomic
  have hb : boundFlag (BVal.fin qb) true = true := by simp [boundFlag]
  have he : boundFlag (BVal.fin qe) true = true := by simp [boundFlag]
  rw [hb, he]
  by_cases h : qb ≤ qe
  · rw [if_pos h, if_pos ((nonempty_closed_iff rfl rfl).mpr (by
      show BVal.fin qb ≤ BVal.fin qe
      exact BVal.fin_le_fin.mpr h))]
  · rw [if_neg h, if_neg (fun hcon => h (BVal.fin_le_fin.mp
      ((nonempty_closed_iff rfl rfl).mp hcon)))]

/-- A period table of finite rows builds either the empty interval or a
normalized list of separated good atoms. -/
theorem df_to_interval_norm (df : List PRow) (hfin : ∀ r ∈ df, finRow r = true) :
    df_to_interval df = emptyI ∨
      ((∀ y ∈ df_to_interval df, goodAtom y = true) ∧
       (df_to_interval df).Pairwise (fun x y => x.upper < y.lower)) := by
  unfold df_to_interval ofIntervals
  apply ofAtoms_norm
  intro a hma
  rw [List.mem_flatMap] at hma
  obtain ⟨i, hi, hai⟩ := hma
  rw [List.mem_filter] at hi
  obtain ⟨hi1, hi2⟩ := hi
  rw [List.mem_map] at hi1
  obtain ⟨r, hr, hir⟩ := hi1
  obtain ⟨qb, qe, hqb, hqe⟩ := finRow_spec (hfin r hr)
  rw [hqb, hqe] at hir
  rw [closedI_fin] at hir
  by_cases hle : qb ≤ qe
  · rw [if_pos hle] at hir
    simp only [id] at hai
    rw [← hir, List.mem_singleton] at hai
    rw [hai]
    exact ⟨rfl, rfl, ⟨qb, rfl⟩, ⟨qe, rfl⟩⟩
  · rw [if_neg hle] at hir
    exfalso
    rw [← hir] at hi2
    simp [isEmptyI, emptyI, emptyAtom, Atomic.nonempty] at hi2
    exact absurd (le_of_lt hi2) (by simp)

/-- Re-reading the flattened sentinel row `(+inf, -inf)` of an empty
interval builds the empty interval again. -/
theorem rebuild_empty (s : String) :
    df_to_interval [⟨BVal.pinf, BVal.ninf, s⟩] = emptyI := rfl

theorem flatMap_id_singleton (l : List Atomic) : (l.map (fun a => [a])).flatMap id = l := by
  induction l with
  | nil => rfl
  | cons a rest ih => simp only [List.map_cons, List.flatMap_cons, id, ih, List.singleton_append]

theorem rows_map_closedI (i : PIntv) (s : String)
    (hgood : ∀ y ∈ i, goodAtom y = true) :
    ((interval_to_df i).map (fun bd => (⟨bd.1, bd.2, s⟩ : PRow))).map
        (fun r => closedI r.begin_ r.end_)
      = i.map (fun a => [a]) := by
  unfold interval_to_df toData
  rw [List.map_map, List.map_map, List.map_map]
  apply List.map_congr_left
  intro a hma
  obtain ⟨hl, hr, hle, ⟨qb, hqb⟩, ⟨qe, hqe⟩⟩ := goodAtom_spec (hgood a hma)
  show closedI a.lower a.upper = [a]
  have hle' : qb ≤ qe := by
    rw [hqb, hqe] at hle
    exact BVal.fin_le_fin.mp hle
  rw [hqb, hqe, closedI_fin, if_pos hle']
  congr 1
  cases a with
  | mk l lo up r =>
    simp only at hl hr hqb hqe
    subst hl
    subst hr
    subst hqb
    subst hqe
    rfl

/-- Rebuilding a normalized interval from its flattened rows returns it
unchanged. -/
theorem rebuild_norm (i : PIntv) (s : String)
    (hgood : ∀ y ∈ i, goodAtom y = true)
    (hsep : i.Pairwise (fun x y => x.upper < y.lower))
    (hne : i ≠ []) :
    df_to_interval ((interval_to_df i).map (fun bd => ⟨bd.1, bd.2, s⟩)) = i := by
  unfold df_to_interval
  rw [rows_map_closedI i s hgood]
  unfold ofIntervals
  have hfil : (i.map fun a => [a]).filter (fun j => !isEmptyI j) = i.map (fun a => [a]) := by
    rw [List.filter_eq_self]
    intro j hj
    rw [List.mem_map] at hj
    obtain ⟨a, hma, haj⟩ := hj
    obtain ⟨hal, har, hale, _, _⟩ := goodAtom_spec (hgood a hma)
    rw [← haj]
    simp [isEmptyI, (nonempty_closed_iff hal har).mpr hale]
  rw [hfil, flatMap_id_singleton]
  unfold ofAtoms
  have hfil2 : i.filter Atomic.nonempty = i := by
    rw [List.filter_eq_self]
    intro a hma
    obtain ⟨hal, har, hale, _, _⟩ := goodAtom_spec (hgood a hma)
    exact (nonempty_closed_iff hal har).mpr hale
  rw [hfil2, if_neg (by rw [List.isEmpty_iff]; exact hne)]
  have hsort : List.Sorted atomKeyRel i := by
    apply hsep.imp_of_mem
    intro a b hma _ hab
    obtain ⟨_, _, hale, _, _⟩ := goodAtom_spec (hgood a hma)
    unfold atomKeyRel atomKeyLe
    simp only [Bool.or_eq_true, Bool.and_eq_true, decide_eq_true_eq]
    exact Or.inl (lt_of_le_of_lt hale hab)
  rw [show sortAtoms i = i from hsort.insertionSort_eq]
  exact mergeLoop_of_sep i hgood hsep

theorem mem_uniqueStatuses (l : List String) (s : String) :
    s ∈ uniqueStatuses l ↔ s ∈ l := by
  induction l with
  | nil => simp [uniqueStatuses]
  | cons a rest ih =>
    unfold uniqueStatuses
    rw [List.mem_cons, List.mem_cons]
    by_cases hsa : s = a
    · simp [hsa]
    · simp only [hsa, false_or]
      rw [List.mem_filter]
      simp [hsa, ih]

theorem nodup_uniqueStatuses (l : List String) : (uniqueStatuses l).Nodup := by
  induction l with
  | nil => exact List.nodup_nil
  | cons a rest ih =>
    unfold uniqueStatuses
    rw [List.nodup_cons]
    constructor
    · intro hmem
      rw [List.mem_filter] at hmem
      simp at hmem
    · exact ih.filter _

theorem lookupStatus_cons (s : String) (e : String × PIntv) (rest : List (String × PIntv)) :
    lookupStatus s (e :: rest) = if e.1 = s then some e.2 else lookupStatus s rest := rfl

theorem lookup_filter_ne (l : List String) (f : String → PIntv) (a s : String)
    (hne : ¬ s = a) :
    lookupStatus s ((l.filter (fun t => t ≠ a)).map (fun t => (t, f t)))
      = lookupStatus s (l.map (fun t => (t, f t))) := by
  induction l with
  | nil => rfl
  | cons b rest ih =>
    by_cases hba : b = a
    · rw [List.filter_cons_of_neg (by simp [hba]), List.map_cons, lookupStatus_cons,
        if_neg (by rw [hba]; exact fun h => hne h.symm)]
      exact ih
    · rw [List.filter_cons_of_pos (by simp [hba]), List.map_cons, List.map_cons,
        lookupStatus_cons, lookupStatus_cons]
      by_cases hbs : b = s
      · rw [if_pos hbs, if_pos hbs]
      · rw [if_neg hbs, if_neg hbs]
        exact ih

theorem lookup_map_uniq (l : List String) (f : String → PIntv) (s : String) :
    lookupStatus s ((uniqueStatuses l).map (fun t => (t, f t)))
      = if s ∈ l then some (f s) else none := by
  induction l with
  | nil => simp [uniqueStatuses, lookupStatus]
  | cons a rest ih =>
    unfold uniqueStatuses
    rw [List.map_cons, lookupStatus_cons]
    by_cases has : a = s
    · subst has
      rw [if_pos rfl, if_pos (List.mem_cons_self a rest)]
    · rw [if_neg has, lookup_filter_ne _ _ _ _ (fun h => has h.symm), ih]
      by_cases hmem : s ∈ rest
      · rw [if_pos hmem, if_pos (List.mem_cons.mpr (Or.inr hmem))]
      · rw [if_neg hmem, if_neg (fun hcon => by
          rcases List.mem_cons.mp hcon with h | h
          · exact has h.symm
          · exact hmem h)]

theorem lookup_eq_none_of_not_mem (p : List (String × PIntv)) (s : String)
    (h : s ∉ p.map Prod.fst) : lookupStatus s p = none := by
  induction p with
  | nil => rfl
  | cons e rest ih =>
    rw [List.map_cons, List.mem_cons] at h
    push_neg at h
    rw [lookupStatus_cons, if_neg (fun hc => h.1 hc.symm)]
    exact ih h.2

theorem partitionEqB_iff (p q : List (String × PIntv)) :
    partitionEqB p q = true ↔ ∀ s, lookupStatus s p = lookupStatus s q := by
  unfold partitionEqB
  rw [List.all_eq_true]
  constructor
  · intro h s
    by_cases hp : s ∈ p.map Prod.fst
    · exact of_decide_eq_true (h s (List.mem_append.mpr (Or.inl hp)))
    · by_cases hq : s ∈ q.map Prod.fst
      · exact of_decide_eq_true (h s (List.mem_append.mpr (Or.inr hq)))
      · rw [lookup_eq_none_of_not_mem p s hp, lookup_eq_none_of_not_mem q s hq]
  · intro h s _
    exact decide_eq_true (h s)

theorem lookup_make_status_intervals (df : List PRow) (s : String) :
    lookupStatus s (make_status_intervals df)
      = if s ∈ df.map PRow.status then
          some (df_to_interval (df.filter (fun r => r.status = s)))
        else none :=
  lookup_map_uniq (df.map PRow.status) _ s

theorem flattenPartition_cons (e : String × PIntv) (rest : List (String × PIntv)) :
    flattenPartition (e :: rest)
      = (interval_to_df e.2).map (fun bd => ⟨bd.1, bd.2, e.1⟩) ++ flattenPartition rest := by
  unfold flattenPartition
  rw [List.flatMap_cons]

theorem flatten_filter_status (keys : List String) (f : String → PIntv) (s : String)
    (hnd : keys.Nodup) (hmem : s ∈ keys) :
    (flattenPartition (keys.map (fun t => (t, f t)))).filter (fun r => r.status = s)
      = (interval_to_df (f s)).map (fun bd => ⟨bd.1, bd.2, s⟩) := by
  induction keys with
  | nil => cases hmem
  | cons t rest ih =>
    rw [List.nodup_cons] at hnd
    obtain ⟨hnt, hnd'⟩ := hnd
    rw [List.map_cons, flattenPartition_cons, List.filter_append]
    have hrows : ∀ (u : String) (v : PIntv),
        ((interval_to_df v).map (fun bd => (⟨bd.1, bd.2, u⟩ : PRow))).filter
            (fun r => r.status = s)
          = if u = s then (interval_to_df v).map (fun bd => ⟨bd.1, bd.2, u⟩) else [] := by
      intro u v
      rw [List.filter_map]
      by_cases hus : u = s
      · rw [if_pos hus]
        congr 1
        rw [List.filter_eq_self]
        intro bd _
        simp [hus]
      · rw [if_neg hus]
        rw [show List.filter ((fun r : PRow => decide (r.status = s)) ∘
              (fun bd : BVal × BVal => (⟨bd.1, bd.2, u⟩ : PRow))) (interval_to_df v)
            = [] from List.filter_eq_nil_iff.mpr (fun bd _ => by simp [hus])]
        rw [List.map_nil]
    rw [hrows t (f t)]
    rcases List.mem_cons.mp hmem with hts | hmem'
    · rw [if_pos hts.symm]
      have htail : (flattenPartition (rest.map (fun u => (u, f u)))).filter
          (fun r => r.status = s) = [] := by
        rw [List.filter_eq_nil_iff]
        intro r hr
        unfold flattenPartition at hr
        rw [List.mem_flatMap] at hr
        obtain ⟨e, he, hre⟩ := hr
        rw [List.mem_map] at he
        obtain ⟨u, hu, heu⟩ := he
        rw [← heu] at hre
        rw [List.mem_map] at hre
        obtain ⟨bd, _, hbd⟩ := hre
        rw [← hbd]
        simp only [decide_eq_true_eq]
        intro hcon
        exact hnt (by rw [← hts, ← hcon]; exact hu)
      rw [htail, List.append_nil, hts]
    · have hts : ¬ t = s := fun h => hnt (h ▸ hmem')
      rw [if_neg hts, List.nil_append]
      exact ih hnd' hmem'

theorem mem_flatten_status (p : List (String × PIntv)) (s : String)
    (hne : ∀ e ∈ p, e.2 ≠ []) :
    s ∈ (flattenPartition p).map PRow.status ↔ s ∈ p.map Prod.fst := by
  constructor
  · intro h
    rw [List.mem_map] at h
    obtain ⟨r, hr, hrs⟩ := h
    unfold flattenPartition at hr
    rw [List.mem_flatMap] at hr
    obtain ⟨e, he, hre⟩ := hr
    rw [List.mem_map] at hre
    obtain ⟨bd, _, hbd⟩ := hre
    rw [List.mem_map]
    exact ⟨e, he, by rw [← hrs, ← hbd]⟩
  · intro h
    rw [List.mem_map] at h
    obtain ⟨e, he, hes⟩ := h
    obtain ⟨a, tl, hav⟩ := List.exists_cons_of_ne_nil (hne e he)
    rw [List.mem_map]
    refine ⟨⟨a.lower, a.upper, e.1⟩, ?_, hes⟩
    unfold flattenPartition
    rw [List.mem_flatMap]
    refine ⟨e, he, ?_⟩
    rw [List.mem_map]
    refine ⟨(a.lower, a.upper), ?_, rfl⟩
    unfold interval_to_df toData
    rw [hav]
    simp

/-- **C4**: the Interval Set Builder is idempotent: building a status
partition from a period table of (finite-timestamp) rows, flattening it
back to a period table the way `main_interval_logic` flattens partitions,
and building again yields the same partition (as a Python dictionary:
same keys, same `portion` interval per key). -/
theorem c4_builder_idempotent (df : List PRow) (hfin : df.all finRow = true) :
    partitionEqB
      (make_status_intervals (flattenPartition (make_status_intervals df)))
      (make_status_intervals df) = true := by
  rw [partitionEqB_iff]
  intro s
  have hfin' : ∀ r ∈ df, finRow r = true := List.all_eq_true.mp hfin
  have hvalsne : ∀ e ∈ make_status_intervals df, e.2 ≠ [] := by
    intro e he
    unfold make_status_intervals at he
    rw [List.mem_map] at he
    obtain ⟨t, _, het⟩ := he
    rw [← het]
    show df_to_interval _ ≠ []
    unfold df_to_interval ofIntervals
    exact ofAtoms_ne_nil _
  have hkeys : (make_status_intervals df).map Prod.fst
      = uniqueStatuses (df.map PRow.status) := by
    unfold make_status_intervals
    rw [List.map_map]
    exact List.map_id _ ▸ rfl
  rw [lookup_make_status_intervals, lookup_make_status_intervals]
  by_cases hmem : s ∈ df.map PRow.status
  · have hmemF : s ∈ (flattenPartition (make_status_intervals df)).map PRow.status := by
      rw [mem_flatten_status _ s hvalsne, hkeys, mem_uniqueStatuses]
      exact hmem
    rw [if_pos hmem, if_pos hmemF]
    congr 1
    have hfilter : (flattenPartition (make_status_intervals df)).filter
          (fun r => r.status = s)
        = (interval_to_df (df_to_interval (df.filter (fun r => r.status = s)))).map
            (fun bd => ⟨bd.1, bd.2, s⟩) := by
      apply flatten_filter_status (uniqueStatuses (df.map PRow.status))
        (fun t => df_to_interval (df.filter (fun r => r.status = t))) s
        (nodup_uniqueStatuses _)
      rw [mem_uniqueStatuses]
      exact hmem
    rw [hfilter]
    rcases df_to_interval_norm (df.filter (fun r => r.status = s))
        (fun r hr => hfin' r (List.mem_filter.mp hr).1) with hcase | ⟨hg, hsep⟩
    · rw [hcase]
      exact rebuild_empty s
    · apply rebuild_norm _ s hg hsep
      show df_to_interval _ ≠ []
      unfold df_to_interval ofIntervals
      exact ofAtoms_ne_nil _
  · have hmemF : ¬ s ∈ (flattenPartition (make_status_intervals df)).map PRow.status := by
      rw [mem_flatten_status _ s hvalsne, hkeys, mem_uniqueStatuses]
      exact hmem
    rw [if_neg hmem, if_neg hmemF]

/-- Closed witness for `C4` on a table with overlapping `P1` rows, an
invalid `P2` row and a degenerate `P3` row. -/
theorem c4_builder_idempotent_witness :
    dfC4.all finRow = true ∧
    partitionEqB
      (make_status_intervals (flattenPartition (make_status_intervals dfC4)))
      (make_status_intervals dfC4) = true :=
  ⟨by decide, c4_builder_idempotent dfC4 (by decide)⟩

/-- **C6 counterexample**: adding an invalid period (`begin > end`) to a
period table leaves the constructed status partition bit-identical, so the
construction neither raises nor keeps any record of the excluded periods:
their count is not recoverable from the result, contradicting "counts the
excluded periods and makes them inspectable to the caller". -/
theorem c6_counterexample :
    make_status_intervals dfC6extra = make_status_intervals dfC6base ∧
    (dfC6extra.filter (fun r => !rowValid r)).length
      ≠ (dfC6base.filter (fun r => !rowValid r)).length := by
  refine ⟨?_, ?_⟩ <;> decide

/-- **C6 amended**: `IntervalSet` construction is total (modelled as a
total function, it raises no exception) and silently drops invalid
periods: building from a period table equals building from the table with
the invalid periods filtered out, and nothing else of them survives. -/
theorem c6_amended_silent_exclusion (df : List PRow) :
    df_to_interval df = df_to_interval (df.filter rowValid) := by
  unfold df_to_interval ofIntervals
  congr 1
  rw [List.filter_map, List.filter_map]
  have hpf : ((fun i => !isEmptyI i) ∘ (fun r : PRow => closedI r.begin_ r.end_))
      = rowValid := rfl
  rw [hpf, List.filter_filter]
  have hand : (fun a : PRow => rowValid a && rowValid a) = rowValid := by
    funext a
    rw [Bool.and_self]
  rw [hand]
